import Mathlib

/-!
The `zip` command of check-roms (`cmd-zip.go`).

A shallow embedding of `zipCommand.Execute`, `externalZip` and `internalZip`.

The process state is passed explicitly: the filesystem, the trace of the
observable operations performed so far (oldest first), the `gameFiles` map and
the stack of deferred `Close` calls of the function that is running.  A call of
`errorExit` with a non-nil error ends the process; this is the `exit` outcome.

Everything outside the source file is either a field of `World` (the catalog
lookup, the results of the system calls that can fail, the order in which the
Go runtime enumerates a map) or a small model of the Go standard library
function that is named (`filepath.Ext`, `filepath.Base`, `strings.TrimPrefix`,
with `/` as the path separator).  The filesystem is a list of entries; a path
can be examined with `os.Stat` exactly when it has an entry, `os.Remove` takes
the entry away, and nothing else changes the filesystem (the archives written
are seen in the trace only).
-/

set_option autoImplicit false

namespace CheckRoms

/-! ## Go standard library: `path/filepath`, `strings` -/

/-- The loop of `filepath.Ext`, run over the reversed path: walk back from the
last byte while no separator is met, and return the suffix that starts at the
first dot found; `acc` is the text already walked over. -/
def extScan : List Char → List Char → List Char
  | [], _ => []
  | c :: rest, acc =>
    if c = '/' then [] else if c = '.' then c :: acc else extScan rest (c :: acc)

/-- The function `filepath.Ext`: the suffix beginning at the final dot in the final element
of the path, empty if there is no dot. -/
def Ext (path : String) : String :=
  String.mk (extScan path.data.reverse [])

/-- The function `strings.TrimPrefix`: `s` without the leading `pre`, or `s` itself when it
does not start with `pre`. -/
def TrimPrefix (s pre : String) : String :=
  if pre.data.isPrefixOf s.data then String.mk (s.data.drop pre.data.length) else s

/-- The function `filepath.Base`: the last element of the path, trailing separators removed;
`.` for the empty path and `/` for a path made of separators only. -/
def Base (path : String) : String :=
  if path.data = [] then "."
  else
    let stripped := path.data.reverse.dropWhile (fun c => c = '/')
    let last := (stripped.takeWhile (fun c => c ≠ '/')).reverse
    if last = [] then "/" else String.mk last

/-! ## Data model -/

/-- A game node of the catalog, an `*xmlquery.Node`.  `id` stands for the
address of the node, which is what the `gameFiles` map is keyed by. -/
structure Node where
  id : Nat
  /-- The value of `SelectAttr("name")` -/
  name : String
  /-- The result of `SelectElements("rom")`, each child given by its `name` attribute -/
  roms : List String
deriving DecidableEq, Repr

/-- A `rom` node returned by `matchRomEntriesBySha`. -/
structure RomNode where
  /-- The value of `SelectAttr("name")` -/
  name : String
  /-- The field `Parent` -/
  parent : Node
deriving DecidableEq, Repr

/-- One entry of the filesystem, with what `os.Stat` reports about it and the
fingerprint `shaHashFile` computes from its bytes. -/
structure DiskFile where
  path : String
  isRegular : Bool
  modTime : Nat
  mode : Nat
  sha : String
deriving DecidableEq, Repr

/-- The struct `zipCommand`. -/
structure zipCommand where
  Exclude : List String
  InfoZip : Bool
  OutputDir : String
  Remove : Bool
  Files : List String
deriving DecidableEq, Repr

/-- The map `gameFiles`, as an association list with one entry per key. -/
abbrev GameFiles := List (Node × List String)

/-- Message levels of `message`. -/
inductive Level where
  | levelDebug | levelInfo | levelWarn | levelError
deriving DecidableEq, Repr

/-- The observable operations of a run.  A system call is recorded when it is
made, with its result (`ok = false` when it returned an error). -/
inductive Event where
  | message (level : Level) (format : String) (args : List String)
  | output (format : String) (args : List String)
  | println (text : String)
  | osOpen (path : String) (ok : Bool)
  | close (path : String)
  | mkdirAll (dir : String) (ok : Bool)
  /-- The call of `externalZip` or `internalZip` at lines 81 to 85, with the
  game the loop is at -/
  | backend (game : Node) (external : Bool) (zipPath : String) (fileList : List String)
  | osCreate (zipPath : String) (ok : Bool)
  | createHeader (zipPath : String) (name : String) (modified : Nat) (mode : Nat) (ok : Bool)
  | copy (zipPath : String) (src : String) (ok : Bool)
  | zipperClose (zipPath : String) (ok : Bool)
  | exec (name : String) (args : List String) (ok : Bool)
  | remove (path : String) (ok : Bool)
deriving DecidableEq, Repr

/-- What the run depends on and the source file does not define. -/
structure World where
  /-- The call `matchRomEntriesBySha(datfile, sha)`: the `rom` nodes of the catalog with
  that fingerprint -/
  matchRomEntriesBySha : String → List RomNode
  /-- The result of `os.Getwd`, `none` for an error -/
  getwd : Option String
  /-- The function `filesInDirectory` -/
  filesInDirectory : String → List String
  /-- The function `filepath.Join` -/
  Join : String → String → String
  /-- The order in which `range` enumerates the entries of a map -/
  rangeOrder : GameFiles → GameFiles
  /-- Whether `os.Open` fails on this existing path -/
  openErr : String → Bool
  /-- Whether `os.Remove` fails on this existing path -/
  removeErr : String → Bool
  /-- Whether `os.MkdirAll` fails on this directory -/
  mkdirAllErr : String → Bool
  /-- Whether `os.Create` fails on this path -/
  createErr : String → Bool
  /-- Whether `zip.Writer.CreateHeader` fails for this archive and entry name -/
  createHeaderErr : String → String → Bool
  /-- Whether `io.Copy` fails for this archive and source path -/
  copyErr : String → String → Bool
  /-- Whether `zip.Writer.Close` fails for this archive -/
  zipperCloseErr : String → Bool
  /-- Whether running the command `zip` with these arguments fails -/
  runErr : List String → Bool

/-- The state of the process. -/
structure State where
  fs : List DiskFile
  trace : List Event
  gameFiles : GameFiles
  /-- The deferred `Close` calls of the running function, the latest first -/
  deferred : List String
deriving DecidableEq, Repr

/-- How a piece of the program ends: control goes on (`ok`), or `errorExit`
has ended the process (`exit`). -/
inductive Outcome where
  | ok (st : State)
  | exit (st : State)
deriving DecidableEq, Repr

namespace Outcome

/-- The state an outcome ends in. -/
def state : Outcome → State
  | ok st => st
  | exit st => st

/-- Sequencing: the rest of the program runs only if the process is alive. -/
def andThen : Outcome → (State → Outcome) → Outcome
  | ok st, k => k st
  | exit st, _ => exit st

/-- Whether the process was ended by `errorExit`. -/
def exited : Outcome → Bool
  | ok _ => false
  | exit _ => true

end Outcome

/-- Append one event to the trace. -/
def State.log (st : State) (e : Event) : State :=
  { st with trace := st.trace ++ [e] }

/-- Modelled from the spec: `errorExit` is not in the source file; a fatal error
"terminates the run immediately", so a non-nil error ends the process and a nil
error lets it go on. -/
def errorExit (err : Bool) (st : State) : Outcome :=
  if err then Outcome.exit st else Outcome.ok st

/-! ## System calls -/

/-- The call `os.Stat`: the entry at the path, `none` for an error. -/
def osStat (fs : List DiskFile) (path : String) : Option DiskFile :=
  fs.find? (fun f => decide (f.path = path))

/-- Whether `os.Open` returns an error: the path is absent or cannot be read. -/
def osOpenErr (w : World) (fs : List DiskFile) (path : String) : Bool :=
  match osStat fs path with
  | none => true
  | some _ => w.openErr path

/-- Whether `os.Remove` returns an error. -/
def osRemoveErr (w : World) (fs : List DiskFile) (path : String) : Bool :=
  match osStat fs path with
  | none => true
  | some _ => w.removeErr path

/-- The filesystem after `os.Remove`. -/
def osRemove (w : World) (fs : List DiskFile) (path : String) : List DiskFile :=
  if osRemoveErr w fs path then fs else fs.filter (fun f => decide (f.path ≠ path))

/-! ## The map `gameFiles` -/

/-- The lookup `gameFiles[g]` with its `ok` flag. -/
def mapGet : GameFiles → Node → Option (List String)
  | [], _ => none
  | (k, v) :: m, g => if k = g then some v else mapGet m g

/-- The assignment `gameFiles[g] = l`. -/
def mapSet : GameFiles → Node → List String → GameFiles
  | [], g, l => [(g, l)]
  | (k, v) :: m, g, l => if k = g then (k, l) :: m else (k, v) :: mapSet m g l

/-! ## `Execute`: classification (lines 36 to 70) -/

/-- Lines 61 to 69: the loop over the matches of one file. -/
def recordMatches (filePath : String) : List RomNode → GameFiles → GameFiles
  | [], gameFiles => gameFiles
  | m :: rest, gameFiles =>
    if m.name = Base filePath then
      let list := match mapGet gameFiles m.parent with
        | some l => l
        | none => []
      recordMatches filePath rest (mapSet gameFiles m.parent (list ++ [filePath]))
    else recordMatches filePath rest gameFiles

/-- Lines 37 to 69: the body of the loop over the input paths. -/
def classifyFile (w : World) (cmd : zipCommand) (st : State) (filePath : String) : Outcome :=
  match osStat st.fs filePath with
  | none =>
    Outcome.ok (st.log (Event.message Level.levelError
      "Cannot check %s, skipping. Reason: %s" [filePath]))
  | some fileInfo =>
    let fileExt := TrimPrefix (Ext filePath) "."
    if fileExt ∈ cmd.Exclude then
      Outcome.ok (st.log (Event.message Level.levelInfo
        "%s has excluded extension, skipping." [filePath]))
    else if !fileInfo.isRegular then
      Outcome.ok (st.log (Event.message Level.levelWarn
        "%s is not a regular file, skipping." [filePath]))
    else
      let err := osOpenErr w st.fs filePath
      (errorExit err (st.log (Event.osOpen filePath (!err)))).andThen fun st =>
        let st := { st with deferred := filePath :: st.deferred }
        let matchList := w.matchRomEntriesBySha fileInfo.sha
        let st := st.log (Event.message Level.levelDebug "found %d matches for %s"
          [toString matchList.length, filePath])
        Outcome.ok { st with gameFiles := recordMatches filePath matchList st.gameFiles }

/-- Lines 36 to 70: the loop over the input paths. -/
def classifyLoop (w : World) (cmd : zipCommand) : List String → State → Outcome
  | [], st => Outcome.ok st
  | filePath :: rest, st => (classifyFile w cmd st filePath).andThen (classifyLoop w cmd rest)

/-! ## `internalZip` and `externalZip` -/

/-- Run the deferred calls of the running function, the latest first. -/
def runDeferred (st : State) : State :=
  { st with trace := st.trace ++ st.deferred.map Event.close, deferred := [] }

/-- Lines 101 to 108. -/
def externalZip (w : World) (zipFileName : String) (fileList : List String)
    (st : State) : Outcome :=
  let argList := [zipFileName]
  let argList := argList ++ fileList
  let err := w.runErr argList
  errorExit err (st.log (Event.exec "zip" argList (!err)))

/-- Lines 116 to 136: the loop of `internalZip` over the file list. -/
def zipFiles (w : World) (zipFileName : String) : List String → State → Outcome
  | [], st => Outcome.ok st
  | filePath :: rest, st =>
    let fileName := Base filePath
    let st := st.log (Event.output "Writing %s to %s..." [fileName, zipFileName])
    let err := osOpenErr w st.fs filePath
    (errorExit err (st.log (Event.osOpen filePath (!err)))).andThen fun st =>
      let st := { st with deferred := filePath :: st.deferred }
      match osStat st.fs filePath with
      | none => errorExit true st
      | some fileInfo =>
        let err := w.createHeaderErr zipFileName fileName
        (errorExit err (st.log (Event.createHeader zipFileName fileName
            fileInfo.modTime fileInfo.mode (!err)))).andThen fun st =>
          let st := st.log (Event.copy zipFileName filePath (!(w.copyErr zipFileName filePath)))
          let st := st.log (Event.output "Done!" [])
          zipFiles w zipFileName rest st

/-- Lines 110 to 140.  The function has its own deferred calls, run when it
returns; those of the caller are put back then. -/
def internalZip (w : World) (zipFileName : String) (fileList : List String)
    (st : State) : Outcome :=
  let saved := st.deferred
  let st := { st with deferred := [] }
  let err := w.createErr zipFileName
  (errorExit err (st.log (Event.osCreate zipFileName (!err)))).andThen fun st =>
    let st := { st with deferred := zipFileName :: st.deferred }
    (zipFiles w zipFileName fileList st).andThen fun st =>
      let err := w.zipperCloseErr zipFileName
      (errorExit err (st.log (Event.zipperClose zipFileName (!err)))).andThen fun st =>
        Outcome.ok { runDeferred st with deferred := saved }

/-! ## `Execute`: completeness and archiving (lines 72 to 97) -/

/-- Lines 88 to 93: the loop that removes the files of an archived game. -/
def removeFiles (w : World) : List String → State → State
  | [], st => st
  | file :: rest, st =>
    let st := st.log (Event.message Level.levelInfo "Removing file %s" [file])
    let err := osRemoveErr w st.fs file
    let st := { st with fs := osRemove w st.fs file,
                        trace := st.trace ++ [Event.remove file (!err)] }
    let st := if err then
        st.log (Event.message Level.levelError "Unable to remove file %s. Reason: %s" [file])
      else st
    removeFiles w rest st

/-- Lines 81 to 85: the archive is made by one of the two backends. -/
def zipBackend (w : World) (cmd : zipCommand) (zipPath : String) (fileList : List String)
    (st : State) : Outcome :=
  if cmd.InfoZip then externalZip w zipPath fileList st
  else internalZip w zipPath fileList st

/-- Lines 86 to 94: the files are removed when the option is set. -/
def cleanUp (w : World) (cmd : zipCommand) (fileList : List String) (st : State) : State :=
  if cmd.Remove then removeFiles w fileList (st.log (Event.println "Cleaning up..."))
  else st

/-- Lines 77 to 80 and the call of line 82 or 84 as it starts: the state in
which the backend runs. -/
def announce (w : World) (cmd : zipCommand) (game : Node) (fileList : List String)
    (st : State) : State :=
  let zipFileName := game.name ++ ".zip"
  let zipPath := w.Join cmd.OutputDir zipFileName
  let st := st.log (Event.mkdirAll cmd.OutputDir (!(w.mkdirAllErr cmd.OutputDir)))
  let st := st.log (Event.output "Creating %s with %d file(s)..."
    [zipFileName, toString fileList.length])
  st.log (Event.backend game cmd.InfoZip zipPath fileList)

/-- Lines 73 to 96: the body of the loop over the entries of `gameFiles`. -/
def archiveGame (w : World) (cmd : zipCommand) (game : Node) (fileList : List String)
    (st : State) : Outcome :=
  let gameName := game.name
  let roms := game.roms
  let st := st.log (Event.message Level.levelInfo "Game %s needs %d file(s), found %d"
    [gameName, toString roms.length, toString fileList.length])
  if roms.length = fileList.length then
    let zipFileName := gameName ++ ".zip"
    let zipPath := w.Join cmd.OutputDir zipFileName
    (zipBackend w cmd zipPath fileList (announce w cmd game fileList st)).andThen fun st =>
      let st := cleanUp w cmd fileList st
      Outcome.ok (st.log (Event.output "Finished writing %s" [zipFileName]))
  else Outcome.ok st

/-- Lines 72 to 97: the loop over the entries of `gameFiles`, in the order the
runtime gives them. -/
def archiveLoop (w : World) (cmd : zipCommand) : GameFiles → State → Outcome
  | [], st => Outcome.ok st
  | (game, fileList) :: rest, st =>
    (archiveGame w cmd game fileList st).andThen (archiveLoop w cmd rest)

/-- Lines 30 to 34: the input paths, those of the working directory when none
is given; `none` when `os.Getwd` fails. -/
def inputFiles (w : World) (cmd : zipCommand) : Option (List String) :=
  if cmd.Files.length = 0 then w.getwd.map w.filesInDirectory else some cmd.Files

/-- The state `Execute` starts in. -/
def initial (fs : List DiskFile) : State :=
  { fs := fs, trace := [], gameFiles := [], deferred := [] }

/-- Lines 27 to 99: `zipCommand.Execute`. -/
def Execute (w : World) (cmd : zipCommand) (fs : List DiskFile) : Outcome :=
  match inputFiles w cmd with
  | none => errorExit true (initial fs)
  | some files =>
    (classifyLoop w cmd files (initial fs)).andThen fun st =>
      (archiveLoop w cmd (w.rangeOrder st.gameFiles) st).andThen fun st =>
        Outcome.ok (runDeferred st)

/-! ## Observations on a state and on a trace -/

/-- The paths recorded for a game, none when the map has no entry for it. -/
def found (m : GameFiles) (g : Node) : List String :=
  match mapGet m g with
  | some l => l
  | none => []

/-- The test of line 76 on the entry of a game: the game has an entry and the
entry has as many paths as the game has `rom` children. -/
def judgedComplete (m : GameFiles) (g : Node) : Bool :=
  match mapGet m g with
  | some l => decide (g.roms.length = l.length)
  | none => false

/-- The event is the call of an archive backend for the game. -/
def isBackendOf (g : Node) : Event → Bool
  | Event.backend game _ _ _ => decide (game = g)
  | _ => false

/-- The number of archive creations started for a game. -/
def archiveCount (g : Node) (tr : List Event) : Nat :=
  tr.countP (isBackendOf g)

/-- The path of a call of `os.Remove`. -/
def removedPath : Event → Option String
  | Event.remove path _ => some path
  | _ => none

/-- The paths `os.Remove` was called on, in order. -/
def removeAttempts (tr : List Event) : List String :=
  tr.filterMap removedPath

/-- The command and arguments of a run of an external program. -/
def execCall : Event → Option (String × List String)
  | Event.exec name args _ => some (name, args)
  | _ => none

/-- The external programs run, in order. -/
def execCalls (tr : List Event) : List (String × List String) :=
  tr.filterMap execCall

/-- What is done to the archive container: an entry is written, with the
name, modification time and mode of its header, or the container is closed. -/
inductive ContainerOp where
  | entry (name : String) (modified : Nat) (mode : Nat)
  | finalize (ok : Bool)
deriving DecidableEq, Repr

/-- The operation on the container an event stands for. -/
def containerOp : Event → Option ContainerOp
  | Event.createHeader _ name modified mode true => some (ContainerOp.entry name modified mode)
  | Event.zipperClose _ ok => some (ContainerOp.finalize ok)
  | _ => none

/-- The operations on the archive container, in order. -/
def containerOps (tr : List Event) : List ContainerOp :=
  tr.filterMap containerOp

/-- The path of a call of `os.Open`. -/
def openedPath : Event → Option String
  | Event.osOpen path _ => some path
  | _ => none

/-- The paths `os.Open` was called on, in order. -/
def openAttempts (tr : List Event) : List String :=
  tr.filterMap openedPath

/-- One step of `openHandles`. -/
def handleStep (hs : List String) : Event → List String
  | Event.osOpen path true => path :: hs
  | Event.osCreate path true => path :: hs
  | Event.close path => hs.erase path
  | _ => hs

/-- The handles that are open after a trace, the latest first: a successful
`os.Open` or `os.Create` adds one, a `Close` releases it. -/
def openHandles (tr : List Event) : List String :=
  tr.foldl handleStep []

/-- The three tests of lines 37 to 53 that make the loop skip a path: `os.Stat`
fails, the extension is excluded, the path is not a regular file. -/
def skipped (cmd : zipCommand) (fs : List DiskFile) (path : String) : Bool :=
  match osStat fs path with
  | none => true
  | some fileInfo =>
    decide (TrimPrefix (Ext path) "." ∈ cmd.Exclude) || !fileInfo.isRegular

/-- The entries the matcher returns for the fingerprint of the file at a path. -/
def matchesFor (w : World) (fs : List DiskFile) (path : String) : List RomNode :=
  match osStat fs path with
  | some fileInfo => w.matchRomEntriesBySha fileInfo.sha
  | none => []

/-- The entries returned for a path whose parent is the game and whose name is
the base filename of the path. -/
def hits (w : World) (fs : List DiskFile) (g : Node) (path : String) : List RomNode :=
  (matchesFor w fs path).filter fun m => decide (m.parent = g ∧ m.name = Base path)

/-- The extension as the specification words it: the text after the last dot
of the path, without the dot; `none` for a path without a dot. -/
def textAfterLastDot (path : String) : Option String :=
  if '.' ∈ path.data then
    some (String.mk (path.data.reverse.takeWhile (fun c => c ≠ '.')).reverse)
  else none

/-- No entry of the map holds an empty list. -/
def NoEmptyEntry (m : GameFiles) : Prop :=
  ∀ g, mapGet m g ≠ some []

/-- The paths classification records for a game from a list of input paths:
each path that is not skipped, once for each of its hits, in input order. -/
def expected (w : World) (cmd : zipCommand) (fs : List DiskFile) (g : Node) :
    List String → List String
  | [] => []
  | p :: rest =>
    (if skipped cmd fs p then [] else List.replicate (hits w fs g p).length p)
      ++ expected w cmd fs g rest

/-- The state after the body of the classification loop has recorded a file
that was opened. -/
def recorded (w : World) (st : State) (filePath : String) : State :=
  { fs := st.fs
    trace := st.trace ++ [Event.osOpen filePath true,
      Event.message Level.levelDebug "found %d matches for %s"
        [toString (matchesFor w st.fs filePath).length, filePath]]
    gameFiles := recordMatches filePath (matchesFor w st.fs filePath) st.gameFiles
    deferred := filePath :: st.deferred }

/-- What the classification loop computes, without the trace: whether the
process exits on a failed `os.Open`, and the map reached. -/
def classifyPure (w : World) (cmd : zipCommand) (fs : List DiskFile) :
    List String → GameFiles → Bool × GameFiles
  | [], m => (false, m)
  | p :: rest, m =>
    if skipped cmd fs p then classifyPure w cmd fs rest m
    else if osOpenErr w fs p then (true, m)
    else classifyPure w cmd fs rest (recordMatches p (matchesFor w fs p) m)

/-- What the loop over the entries `es` may do: call an archive backend for an
entry that passes the test of line 76, and call `os.Remove` on a path of such
an entry. -/
def allowed (es : GameFiles) : Event → Prop
  | Event.backend g _ _ l => (g, l) ∈ es ∧ g.roms.length = l.length
  | Event.remove p _ => ∃ g l, (g, l) ∈ es ∧ g.roms.length = l.length ∧ p ∈ l
  | _ => True

/-- The trace of `st'` is that of `st` followed by events that `es` allows. -/
def Grows (es : GameFiles) (st st' : State) : Prop :=
  ∃ evs, st'.trace = st.trace ++ evs ∧ ∀ e ∈ evs, allowed es e

/-- From `st` to `st'` the filesystem and the map are unchanged, no archive
backend is called and no file is removed. -/
def Quiet (st st' : State) : Prop :=
  st'.fs = st.fs ∧ st'.gameFiles = st.gameFiles ∧ Grows [] st st'

/-- The events of one turn of the removal loop on a path. -/
def removalEvents (w : World) (fs : List DiskFile) (file : String) : List Event :=
  [Event.message Level.levelInfo "Removing file %s" [file],
    Event.remove file (!osRemoveErr w fs file)]
  ++ (if osRemoveErr w fs file then
        [Event.message Level.levelError "Unable to remove file %s. Reason: %s" [file]]
      else [])

/-- The events of one turn of the loop of `internalZip` in which nothing fails. -/
def entryEvents (w : World) (zipFileName filePath : String) (fileInfo : DiskFile) :
    List Event :=
  [Event.output "Writing %s to %s..." [Base filePath, zipFileName],
    Event.osOpen filePath true,
    Event.createHeader zipFileName (Base filePath) fileInfo.modTime fileInfo.mode true,
    Event.copy zipFileName filePath (!w.copyErr zipFileName filePath),
    Event.output "Done!" []]

/-- The call of an archive backend an event stands for: the game, whether the
backend is the external one, the path of the archive and the list of files. -/
def backendCall : Event → Option (Node × Bool × String × List String)
  | Event.backend game external zipPath fileList => some (game, external, zipPath, fileList)
  | _ => none

/-- The calls of an archive backend, in order. -/
def backendCalls (tr : List Event) : List (Node × Bool × String × List String) :=
  tr.filterMap backendCall

/-- The backend calls of the loop over the entries `es` when nothing ends the
run: one for each entry that passes the test of line 76, in the order of the
entries, on the output directory joined with the name of the game and `.zip`,
and on the list of the entry. -/
def expectedCalls (w : World) (cmd : zipCommand) :
    GameFiles → List (Node × Bool × String × List String)
  | [] => []
  | (g, l) :: rest =>
    (if g.roms.length = l.length then
        [(g, cmd.InfoZip, w.Join cmd.OutputDir (g.name ++ ".zip"), l)]
      else [])
      ++ expectedCalls w cmd rest

/-- The command and arguments `externalZip` runs for a backend call: `zip`,
the path of the archive, then the files of the list. -/
def zipArgs (c : Node × Bool × String × List String) : String × List String :=
  ("zip", c.2.2.1 :: c.2.2.2)

/-- The lists of the entries that pass the test of line 76, one after the
other in the order of the entries. -/
def archivedPaths : GameFiles → List String
  | [] => []
  | (g, l) :: rest => (if g.roms.length = l.length then l else []) ++ archivedPaths rest

/-! ## A small catalog, a filesystem and some worlds -/

/-- The game `Alpha`, with the files `a.bin` and `b.bin`. -/
def alpha : Node := { id := 1, name := "Alpha", roms := ["a.bin", "b.bin"] }

/-- The game `Solo`, with the one file `a.bin`, the same as that of `Alpha`. -/
def solo : Node := { id := 2, name := "Solo", roms := ["a.bin"] }

/-- The game `Bare`, which has no `rom` child. -/
def bare : Node := { id := 3, name := "Bare", roms := [] }

/-- The game `Deep`, with the one file `f`. -/
def deep : Node := { id := 4, name := "Deep", roms := ["f"] }

/-- A catalog with the game `Alpha` only (and `Deep`, for the file `f`). -/
def catalogAlpha (sha : String) : List RomNode :=
  if sha = "sha-a" then [{ name := "a.bin", parent := alpha }]
  else if sha = "sha-b" then [{ name := "b.bin", parent := alpha }]
  else if sha = "sha-f" then [{ name := "f", parent := deep }]
  else []

/-- A catalog in which `a.bin` belongs to both `Alpha` and `Solo`; `Bare` is a
game of it too, and no entry names it. -/
def catalogShared (sha : String) : List RomNode :=
  if sha = "sha-a" then
    [{ name := "a.bin", parent := alpha }, { name := "a.bin", parent := solo }]
  else if sha = "sha-b" then [{ name := "b.bin", parent := alpha }]
  else []

/-- A filesystem with three regular files. -/
def disk : List DiskFile :=
  [{ path := "a.bin", isRegular := true, modTime := 100, mode := 420, sha := "sha-a" },
   { path := "b.bin", isRegular := true, modTime := 200, mode := 420, sha := "sha-b" },
   { path := "d.x/f", isRegular := true, modTime := 300, mode := 420, sha := "sha-f" }]

/-- A world in which no system call fails; the map is enumerated in the order
of insertion. -/
def calm (catalog : String → List RomNode) : World :=
  { matchRomEntriesBySha := catalog
    getwd := some "."
    filesInDirectory := fun _ => []
    Join := fun dir file => dir ++ "/" ++ file
    rangeOrder := fun m => m
    openErr := fun _ => false
    removeErr := fun _ => false
    mkdirAllErr := fun _ => false
    createErr := fun _ => false
    createHeaderErr := fun _ _ => false
    copyErr := fun _ _ => false
    zipperCloseErr := fun _ => false
    runErr := fun _ => false }

/-- The command line `zip a.bin b.bin`, with the internal backend. -/
def cmdBoth : zipCommand :=
  { Exclude := [], InfoZip := false, OutputDir := ".", Remove := false,
    Files := ["a.bin", "b.bin"] }

/-- The command line `zip -m a.bin`. -/
def cmdRemoveA : zipCommand :=
  { Exclude := [], InfoZip := false, OutputDir := ".", Remove := true, Files := ["a.bin"] }

/-- The command line `zip -m a.bin b.bin`. -/
def cmdRemoveBoth : zipCommand :=
  { Exclude := [], InfoZip := false, OutputDir := ".", Remove := true,
    Files := ["a.bin", "b.bin"] }

/-- The command line `zip -i a.bin b.bin`, with the external backend. -/
def cmdExternal : zipCommand :=
  { Exclude := [], InfoZip := true, OutputDir := "out", Remove := false,
    Files := ["a.bin", "b.bin"] }

/-- The command line `zip -e x/f d.x/f`. -/
def cmdExclude : zipCommand :=
  { Exclude := ["x/f"], InfoZip := false, OutputDir := ".", Remove := false,
    Files := ["d.x/f"] }

/-- A world in which `os.Create` fails on `./Alpha.zip`. -/
def noCreate (catalog : String → List RomNode) : World :=
  { calm catalog with createErr := fun zipPath => decide (zipPath = "./Alpha.zip") }

/-- A world in which `io.Copy` fails. -/
def noCopy : World :=
  { calm catalogAlpha with copyErr := fun _ _ => true }

/-- A world in which `os.MkdirAll` and then `os.Create` fail. -/
def noMkdir : World :=
  { calm catalogAlpha with mkdirAllErr := fun _ => true, createErr := fun _ => true }

/-- The game `Other`, with the one file `b.bin`. -/
def other : Node := { id := 5, name := "Other", roms := ["b.bin"] }

/-- A catalog with two games of one file each, `Solo` and `Other`. -/
def catalogTwo (sha : String) : List RomNode :=
  if sha = "sha-a" then [{ name := "a.bin", parent := solo }]
  else if sha = "sha-b" then [{ name := "b.bin", parent := other }]
  else []

/-- The command line `zip b.bin a.bin`, with the internal backend. -/
def cmdSwapped : zipCommand :=
  { Exclude := [], InfoZip := false, OutputDir := ".", Remove := false,
    Files := ["b.bin", "a.bin"] }

/-- A world in which `os.Create` fails on `./Solo.zip`. -/
def noCreateSolo : World :=
  { calm catalogTwo with createErr := fun zipPath => decide (zipPath = "./Solo.zip") }

/-- A world in which the program `zip` fails on the archive `out/Solo.zip`. -/
def noZipSolo : World :=
  { calm catalogTwo with runErr := fun args => decide (args.head? = some "out/Solo.zip") }

theorem mapGet_mapSet (m : GameFiles) (g g' : Node) (l : List String) :
    mapGet (mapSet m g l) g' = if g = g' then some l else mapGet m g' := by
  induction m with
  | nil => simp [mapSet, mapGet]
  | cons kv m ih =>
    obtain ⟨k, v⟩ := kv
    by_cases hk : k = g
    · subst hk
      by_cases hg : k = g' <;> simp [mapSet, mapGet, hg]
    · by_cases hg : k = g'
      · subst hg
        have : ¬ g = k := fun h => hk h.symm
        simp [mapSet, mapGet, hk, this]
      · simp [mapSet, mapGet, hk, hg, ih]

/-- The keys of the map. -/
theorem keys_mapSet (m : GameFiles) (g : Node) (l : List String) :
    (mapSet m g l).map Prod.fst =
      if g ∈ m.map Prod.fst then m.map Prod.fst else m.map Prod.fst ++ [g] := by
  induction m with
  | nil => simp [mapSet]
  | cons kv m ih =>
    obtain ⟨k, v⟩ := kv
    by_cases hk : k = g
    · subst hk
      simp [mapSet]
    · have hk2 : ¬ g = k := fun h => hk h.symm
      by_cases hm : g ∈ m.map Prod.fst
      · simp only [mapSet, hk, if_false, List.map_cons, ih, hm, if_true, List.mem_cons, or_true]
      · simp only [mapSet, hk, if_false, List.map_cons, ih, hm, List.mem_cons, hk2, or_self,
          List.cons_append]

theorem nodup_keys_mapSet (m : GameFiles) (g : Node) (l : List String)
    (h : (m.map Prod.fst).Nodup) : ((mapSet m g l).map Prod.fst).Nodup := by
  rw [keys_mapSet]
  by_cases hm : g ∈ m.map Prod.fst
  · simpa [hm] using h
  · simp only [hm, if_false]
    exact List.Nodup.append h (List.nodup_singleton g) (by simpa using hm)

theorem mapGet_eq_none_iff (m : GameFiles) (g : Node) :
    mapGet m g = none ↔ g ∉ m.map Prod.fst := by
  induction m with
  | nil => simp [mapGet]
  | cons kv m ih =>
    obtain ⟨k, v⟩ := kv
    by_cases hk : k = g
    · simp [mapGet, hk]
    · have hk2 : ¬ g = k := fun h => hk h.symm
      simp [mapGet, hk, hk2, ih]

theorem mapGet_of_mem (m : GameFiles) (h : (m.map Prod.fst).Nodup) (g : Node)
    (l : List String) (hm : (g, l) ∈ m) : mapGet m g = some l := by
  induction m with
  | nil => simp at hm
  | cons kv m ih =>
    obtain ⟨k, v⟩ := kv
    simp only [List.map_cons, List.nodup_cons] at h
    rcases List.mem_cons.mp hm with heq | hm'
    · cases heq
      simp [mapGet]
    · have hk : ¬ k = g := by
        intro hk
        subst hk
        exact h.1 (List.mem_map.mpr ⟨(k, l), hm', rfl⟩)
      simp only [mapGet, hk, if_false]
      exact ih h.2 hm'

theorem mem_of_mapGet (m : GameFiles) (g : Node) (l : List String)
    (h : mapGet m g = some l) : (g, l) ∈ m := by
  induction m with
  | nil => simp [mapGet] at h
  | cons kv m ih =>
    obtain ⟨k, v⟩ := kv
    by_cases hk : k = g
    · simp only [mapGet, hk, if_true, Option.some.injEq] at h
      simp [hk, h]
    · simp only [mapGet, hk, if_false] at h
      exact List.mem_cons_of_mem _ (ih h)

/-- The number of entries of a map with unique keys that pass the test of
line 76 for a game. -/
theorem countP_complete (m : GameFiles) (h : (m.map Prod.fst).Nodup) (g : Node) :
    m.countP (fun e => decide (e.1 = g) && decide (e.1.roms.length = e.2.length)) =
      if judgedComplete m g then 1 else 0 := by
  induction m with
  | nil => simp [judgedComplete, mapGet]
  | cons kv m ih =>
    obtain ⟨k, v⟩ := kv
    simp only [List.map_cons, List.nodup_cons] at h
    by_cases hk : k = g
    · subst hk
      have hnone : mapGet m k = none := (mapGet_eq_none_iff m k).mpr h.1
      have h0 : m.countP (fun e => decide (e.1 = k) && decide (e.1.roms.length = e.2.length)) = 0 := by
        rw [ih h.2]
        simp [judgedComplete, hnone]
      rw [List.countP_cons, h0]
      simp [judgedComplete, mapGet]
    · rw [List.countP_cons, ih h.2]
      simp [judgedComplete, mapGet, hk]

/-! ## Lemmas: classification -/

theorem found_mapSet (m : GameFiles) (g g' : Node) (l : List String) :
    found (mapSet m g l) g' = if g = g' then l else found m g' := by
  unfold found
  rw [mapGet_mapSet]
  by_cases h : g = g' <;> simp [h]

theorem found_recordMatches (p : String) (ms : List RomNode) (m : GameFiles) (g : Node) :
    found (recordMatches p ms m) g = found m g ++ List.replicate
      (ms.filter fun r => decide (r.parent = g ∧ r.name = Base p)).length p := by
  induction ms generalizing m with
  | nil => simp [recordMatches]
  | cons r rs ih =>
    by_cases hn : r.name = Base p
    · simp only [recordMatches, hn, if_true]
      rw [ih, found_mapSet]
      by_cases hg : r.parent = g
      · subst hg
        simp [found, hn, List.replicate_succ, List.filter_cons]
      · simp [hg, List.filter_cons]
    · simp only [recordMatches, hn, if_false]
      rw [ih]
      simp [List.filter_cons, hn]

theorem noEmpty_recordMatches (p : String) (ms : List RomNode) (m : GameFiles)
    (h : NoEmptyEntry m) : NoEmptyEntry (recordMatches p ms m) := by
  induction ms generalizing m with
  | nil => simpa [recordMatches] using h
  | cons r rs ih =>
    by_cases hn : r.name = Base p
    · simp only [recordMatches, hn, if_true]
      apply ih
      intro g
      rw [mapGet_mapSet]
      by_cases hg : r.parent = g
      · simp [hg]
      · simpa [hg] using h g
    · simp only [recordMatches, hn, if_false]
      exact ih m h

theorem nodup_keys_recordMatches (p : String) (ms : List RomNode) (m : GameFiles)
    (h : (m.map Prod.fst).Nodup) : ((recordMatches p ms m).map Prod.fst).Nodup := by
  induction ms generalizing m with
  | nil => simpa [recordMatches] using h
  | cons r rs ih =>
    by_cases hn : r.name = Base p
    · simp only [recordMatches, hn, if_true]
      exact ih _ (nodup_keys_mapSet m _ _ h)
    · simp only [recordMatches, hn, if_false]
      exact ih m h

/-- The body of the loop on a path that is skipped: one message, nothing else. -/
theorem classifyFile_skipped (w : World) (cmd : zipCommand) (st : State) (p : String)
    (h : skipped cmd st.fs p = true) :
    ∃ lvl fmt, classifyFile w cmd st p = Outcome.ok (st.log (Event.message lvl fmt [p])) := by
  unfold skipped at h
  unfold classifyFile
  cases hs : osStat st.fs p with
  | none => exact ⟨_, _, rfl⟩
  | some f =>
    rw [hs] at h
    simp only [Bool.or_eq_true, decide_eq_true_eq] at h
    by_cases hx : TrimPrefix (Ext p) "." ∈ cmd.Exclude
    · simp only [hx, if_true]
      exact ⟨_, _, rfl⟩
    · have hr : (!f.isRegular) = true := by
        rcases h with h | h
        · exact absurd h hx
        · exact h
      simp only [hx, if_false, hr, if_true]
      exact ⟨_, _, rfl⟩

/-- The body of the loop on a path that is not skipped: the file is opened, and
recorded unless `os.Open` fails. -/
theorem classifyFile_kept (w : World) (cmd : zipCommand) (st : State) (p : String)
    (h : skipped cmd st.fs p = false) :
    classifyFile w cmd st p =
      if osOpenErr w st.fs p then Outcome.exit (st.log (Event.osOpen p false))
      else Outcome.ok (recorded w st p) := by
  unfold skipped at h
  unfold classifyFile
  cases hs : osStat st.fs p with
  | none => simp [hs] at h
  | some f =>
    rw [hs] at h
    simp only [Bool.or_eq_false_iff, decide_eq_false_iff_not] at h
    have hr : (!f.isRegular) = false := h.2
    simp only [h.1, if_false, hr]
    by_cases ho : osOpenErr w st.fs p = true
    · simp [ho, errorExit, Outcome.andThen]
    · simp only [Bool.not_eq_true] at ho
      simp [ho, errorExit, Outcome.andThen, recorded, matchesFor, hs, State.log]

theorem classifyFile_fs (w : World) (cmd : zipCommand) (st : State) (p : String) :
    (classifyFile w cmd st p).state.fs = st.fs := by
  cases h : skipped cmd st.fs p with
  | true =>
    obtain ⟨lvl, fmt, he⟩ := classifyFile_skipped w cmd st p h
    rw [he]; rfl
  | false =>
    rw [classifyFile_kept w cmd st p h]
    by_cases ho : osOpenErr w st.fs p = true <;> simp [ho, Outcome.state, State.log, recorded]

/-- A property of the state that each step of the classification loop keeps
holds at the end of the loop, whether the loop ends or the process exits. -/
theorem classifyLoop_invariant (w : World) (cmd : zipCommand) (P : State → Prop)
    (hstep : ∀ st p, P st → P (classifyFile w cmd st p).state)
    (files : List String) (st : State) (h : P st) :
    P (classifyLoop w cmd files st).state := by
  induction files generalizing st with
  | nil => simpa [classifyLoop, Outcome.state] using h
  | cons p rest ih =>
    have hp := hstep st p h
    simp only [classifyLoop]
    cases hc : classifyFile w cmd st p with
    | ok st1 =>
      rw [hc] at hp
      exact ih st1 hp
    | exit st1 =>
      rw [hc] at hp
      exact hp

theorem classifyLoop_fs (w : World) (cmd : zipCommand) (files : List String) (st : State) :
    (classifyLoop w cmd files st).state.fs = st.fs :=
  classifyLoop_invariant w cmd (fun s => s.fs = st.fs)
    (fun s p hs => by
      show (classifyFile w cmd s p).state.fs = st.fs
      rw [classifyFile_fs]; exact hs) files st rfl

theorem classifyLoop_pure (w : World) (cmd : zipCommand) (files : List String) (st : State) :
    ((classifyLoop w cmd files st).exited, (classifyLoop w cmd files st).state.gameFiles) =
      classifyPure w cmd st.fs files st.gameFiles := by
  induction files generalizing st with
  | nil => simp [classifyLoop, classifyPure, Outcome.exited, Outcome.state]
  | cons p rest ih =>
    cases h : skipped cmd st.fs p with
    | true =>
      obtain ⟨lvl, fmt, he⟩ := classifyFile_skipped w cmd st p h
      simp only [classifyLoop, classifyPure, he, Outcome.andThen, h, if_true]
      exact ih _
    | false =>
      simp only [classifyLoop, classifyPure, classifyFile_kept w cmd st p h, h]
      by_cases ho : osOpenErr w st.fs p = true
      · simp [ho, Outcome.andThen, Outcome.exited, Outcome.state, State.log]
      · simp only [Bool.not_eq_true] at ho
        simp only [ho, Outcome.andThen, Bool.false_eq_true, if_false]
        exact ih _

theorem classifyPure_filter (w : World) (cmd : zipCommand) (fs : List DiskFile)
    (files : List String) (m : GameFiles) :
    classifyPure w cmd fs (files.filter fun p => !skipped cmd fs p) m =
      classifyPure w cmd fs files m := by
  induction files generalizing m with
  | nil => rfl
  | cons p rest ih =>
    cases h : skipped cmd fs p with
    | true => simp [List.filter_cons, h, classifyPure, ih]
    | false =>
      simp only [List.filter_cons, h, classifyPure, Bool.not_false, if_true]
      by_cases ho : osOpenErr w fs p = true
      · simp [ho]
      · simp [ho, ih]

theorem classifyPure_exited (w : World) (cmd : zipCommand) (fs : List DiskFile)
    (files : List String) (m : GameFiles) :
    (classifyPure w cmd fs files m).1 =
      files.any fun p => !skipped cmd fs p && osOpenErr w fs p := by
  induction files generalizing m with
  | nil => rfl
  | cons p rest ih =>
    cases h : skipped cmd fs p with
    | true => simp [classifyPure, h, ih]
    | false =>
      by_cases ho : osOpenErr w fs p = true
      · simp [classifyPure, h, ho]
      · simp [classifyPure, h, ho, ih]

theorem classifyPure_found (w : World) (cmd : zipCommand) (fs : List DiskFile)
    (files : List String) (m : GameFiles) (h : (classifyPure w cmd fs files m).1 = false)
    (g : Node) :
    found (classifyPure w cmd fs files m).2 g = found m g ++ expected w cmd fs g files := by
  induction files generalizing m with
  | nil => simp [classifyPure, expected]
  | cons p rest ih =>
    cases hs : skipped cmd fs p with
    | true =>
      simp only [classifyPure, hs, if_true] at h ⊢
      simp [expected, hs, ih m h]
    | false =>
      by_cases ho : osOpenErr w fs p = true
      · simp [classifyPure, hs, ho] at h
      · simp only [classifyPure, hs, ho, Bool.false_eq_true, if_false] at h ⊢
        rw [ih _ h, found_recordMatches]
        simp [expected, hs, hits, List.append_assoc]

theorem classifyPure_noEmpty (w : World) (cmd : zipCommand) (fs : List DiskFile)
    (files : List String) (m : GameFiles) (h : NoEmptyEntry m) :
    NoEmptyEntry (classifyPure w cmd fs files m).2 := by
  induction files generalizing m with
  | nil => simpa [classifyPure] using h
  | cons p rest ih =>
    cases hs : skipped cmd fs p with
    | true => simpa [classifyPure, hs] using ih m h
    | false =>
      by_cases ho : osOpenErr w fs p = true
      · simpa [classifyPure, hs, ho] using h
      · simpa [classifyPure, hs, ho] using ih _ (noEmpty_recordMatches _ _ _ h)

theorem classifyPure_nodup (w : World) (cmd : zipCommand) (fs : List DiskFile)
    (files : List String) (m : GameFiles) (h : (m.map Prod.fst).Nodup) :
    ((classifyPure w cmd fs files m).2.map Prod.fst).Nodup := by
  induction files generalizing m with
  | nil => simpa [classifyPure] using h
  | cons p rest ih =>
    cases hs : skipped cmd fs p with
    | true => simpa [classifyPure, hs] using ih m h
    | false =>
      by_cases ho : osOpenErr w fs p = true
      · simpa [classifyPure, hs, ho] using h
      · simpa [classifyPure, hs, ho] using ih _ (nodup_keys_recordMatches _ _ _ h)

/-- Every recorded path is a path `os.Stat` succeeds on. -/
theorem classifyPure_stat (w : World) (cmd : zipCommand) (fs : List DiskFile)
    (files : List String) (m : GameFiles)
    (h : ∀ g p, p ∈ found m g → (osStat fs p).isSome = true) :
    ∀ g p, p ∈ found (classifyPure w cmd fs files m).2 g → (osStat fs p).isSome = true := by
  induction files generalizing m with
  | nil => simpa [classifyPure] using h
  | cons q rest ih =>
    cases hs : skipped cmd fs q with
    | true => simpa [classifyPure, hs] using ih m h
    | false =>
      by_cases ho : osOpenErr w fs q = true
      · simpa [classifyPure, hs, ho] using h
      · simp only [classifyPure, hs, ho, Bool.false_eq_true, if_false]
        apply ih
        intro g p hp
        rw [found_recordMatches] at hp
        rcases List.mem_append.mp hp with hp | hp
        · exact h g p hp
        · have hpq : p = q := (List.mem_replicate.mp hp).2
          subst hpq
          unfold skipped at hs
          cases hst : osStat fs p with
          | none => simp [hst] at hs
          | some f => rfl

theorem count_expected (w : World) (cmd : zipCommand) (fs : List DiskFile) (g : Node)
    (files : List String) (p : String) :
    (expected w cmd fs g files).count p =
      (files.filter fun q => !skipped cmd fs q).count p * (hits w fs g p).length := by
  induction files with
  | nil => simp [expected]
  | cons q rest ih =>
    cases hs : skipped cmd fs q with
    | true => simp [expected, hs, ih, List.filter_cons]
    | false =>
      simp only [expected, hs, Bool.false_eq_true, if_false, List.count_append, ih,
        List.filter_cons, Bool.not_false, if_true, List.count_cons]
      by_cases hq : q = p
      · subst hq
        simp [List.count_replicate_self, Nat.add_mul, Nat.add_comm]
      · have : ¬ (q == p) = true := by simpa using hq
        simp [List.count_replicate, hq, this]

theorem mem_expected (w : World) (cmd : zipCommand) (fs : List DiskFile) (g : Node)
    (files : List String) (p : String) :
    p ∈ expected w cmd fs g files ↔
      p ∈ files ∧ skipped cmd fs p = false ∧ hits w fs g p ≠ [] := by
  induction files with
  | nil => simp [expected]
  | cons q rest ih =>
    simp only [expected, List.mem_append, ih, List.mem_cons]
    cases hs : skipped cmd fs q with
    | true =>
      simp only [if_true, List.not_mem_nil, false_or]
      constructor
      · rintro ⟨h1, h2, h3⟩
        exact ⟨Or.inr h1, h2, h3⟩
      · rintro ⟨h1 | h1, h2, h3⟩
        · subst h1; rw [hs] at h2; cases h2
        · exact ⟨h1, h2, h3⟩
    | false =>
      simp only [Bool.false_eq_true, if_false, List.mem_replicate]
      constructor
      · rintro (⟨h1, h2⟩ | ⟨h1, h2, h3⟩)
        · subst h2
          refine ⟨Or.inl rfl, hs, ?_⟩
          intro h0
          rw [h0] at h1
          exact h1 rfl
        · exact ⟨Or.inr h1, h2, h3⟩
      · rintro ⟨h1 | h1, h2, h3⟩
        · subst h1
          left
          exact ⟨by simpa [List.length_eq_zero] using h3, rfl⟩
        · right; exact ⟨h1, h2, h3⟩

theorem expected_perm (w : World) (cmd : zipCommand) (fs : List DiskFile) (g : Node)
    (l1 l2 : List String) (h : l1.Perm l2) :
    (expected w cmd fs g l1).Perm (expected w cmd fs g l2) := by
  induction h with
  | nil => exact List.Perm.refl _
  | cons x _ ih => exact List.Perm.append_left _ ih
  | swap x y l =>
    simp only [expected]
    rw [← List.append_assoc, ← List.append_assoc]
    exact List.Perm.append_right _ List.perm_append_comm
  | trans _ _ ih1 ih2 => exact ih1.trans ih2

theorem found_ne_nil_iff (m : GameFiles) (h : NoEmptyEntry m) (g : Node) :
    found m g ≠ [] ↔ mapGet m g ≠ none := by
  unfold found
  cases hg : mapGet m g with
  | none => simp
  | some l =>
    have := h g
    rw [hg] at this
    simpa using this

theorem judgedComplete_eq (m : GameFiles) (h : NoEmptyEntry m) (g : Node) :
    judgedComplete m g =
      (decide (found m g ≠ []) && decide (g.roms.length = (found m g).length)) := by
  have hn := h g
  unfold judgedComplete found
  cases hg : mapGet m g with
  | none => simp
  | some l =>
    rw [hg] at hn
    have : l ≠ [] := by simpa using hn
    simp [this]

theorem noEmpty_nil : NoEmptyEntry [] := by
  intro g
  simp [mapGet]

theorem classifyLoop_openAttempts (w : World) (cmd : zipCommand) (files : List String)
    (st : State) (h : ∀ q ∈ openAttempts st.trace, skipped cmd st.fs q = false) :
    ∀ q ∈ openAttempts (classifyLoop w cmd files st).state.trace,
      skipped cmd st.fs q = false := by
  have key := classifyLoop_invariant w cmd
    (fun s => s.fs = st.fs ∧ ∀ q ∈ openAttempts s.trace, skipped cmd st.fs q = false)
    (fun s p hs => by
      obtain ⟨hfs, hq⟩ := hs
      refine ⟨by rw [classifyFile_fs]; exact hfs, ?_⟩
      cases hsk : skipped cmd s.fs p with
      | true =>
        obtain ⟨lvl, fmt, he⟩ := classifyFile_skipped w cmd s p hsk
        rw [he]
        simpa [Outcome.state, State.log, openAttempts, List.filterMap_append, openedPath]
          using hq
      | false =>
        rw [classifyFile_kept w cmd s p hsk]
        rw [hfs] at hsk
        by_cases ho : osOpenErr w s.fs p = true
        · rw [if_pos ho]
          simp only [Outcome.state, State.log, openAttempts,
            List.filterMap_append, List.mem_append]
          rintro q (hq1 | hq1)
          · exact hq q hq1
          · have : q = p := by simpa [openedPath] using hq1
            rw [this]; exact hsk
        · rw [if_neg ho]
          simp only [Outcome.state, recorded, openAttempts,
            List.filterMap_append, List.mem_append]
          rintro q (hq1 | hq1)
          · exact hq q hq1
          · have : q = p := by simpa [openedPath] using hq1
            rw [this]; exact hsk)
    files st ⟨rfl, h⟩
  exact key.2

theorem classify_initial (w : World) (cmd : zipCommand) (fs : List DiskFile)
    (files : List String) :
    (classifyLoop w cmd files (initial fs)).exited = (classifyPure w cmd fs files []).1
      ∧ (classifyLoop w cmd files (initial fs)).state.gameFiles =
          (classifyPure w cmd fs files []).2 := by
  have h := classifyLoop_pure w cmd files (initial fs)
  exact ⟨congrArg Prod.fst h, congrArg Prod.snd h⟩

/-- C2: when classification ends, a path occurs in the aggregate of a game as
often as it occurs among the inputs that are not skipped, times the number of
entries the matcher returns for its fingerprint with that game as parent and
its base filename as name; so it is in the aggregate only if there is such an
entry, and the map has an entry for a game only if some input has one. -/
theorem aggregate_multiplicity (w : World) (cmd : zipCommand) (fs : List DiskFile)
    (files : List String) (st : State)
    (h : classifyLoop w cmd files (initial fs) = Outcome.ok st) (g : Node) (p : String) :
    (found st.gameFiles g).count p =
        (files.filter fun q => !skipped cmd fs q).count p *
          ((matchesFor w fs p).filter fun m =>
            decide (m.parent = g ∧ m.name = Base p)).length
      ∧ (p ∈ found st.gameFiles g →
          ∃ m ∈ matchesFor w fs p, m.parent = g ∧ m.name = Base p)
      ∧ (mapGet st.gameFiles g ≠ none ↔
          ∃ q ∈ files, skipped cmd fs q = false ∧
            ∃ m ∈ matchesFor w fs q, m.parent = g ∧ m.name = Base q) := by
  obtain ⟨hpe, hpm⟩ := classify_initial w cmd fs files
  rw [h] at hpe hpm
  have hex : (classifyPure w cmd fs files []).1 = false := hpe.symm
  have hmap : st.gameFiles = (classifyPure w cmd fs files []).2 := hpm
  have hfound : ∀ g', found st.gameFiles g' = expected w cmd fs g' files := by
    intro g'
    rw [hmap, classifyPure_found w cmd fs files [] hex g']
    simp [found, mapGet]
  have hne : NoEmptyEntry st.gameFiles := by
    rw [hmap]
    exact classifyPure_noEmpty w cmd fs files [] noEmpty_nil
  have hhit : ∀ q, hits w fs g q ≠ [] ↔
      ∃ m ∈ matchesFor w fs q, m.parent = g ∧ m.name = Base q := by
    intro q
    unfold hits
    rw [← List.length_pos, List.length_pos_iff_exists_mem]
    simp [List.mem_filter]
  refine ⟨?_, ?_, ?_⟩
  · rw [hfound, count_expected]
    rfl
  · intro hp
    rw [hfound, mem_expected] at hp
    exact (hhit p).mp hp.2.2
  · rw [← found_ne_nil_iff _ hne, hfound]
    constructor
    · intro hnil
      obtain ⟨q, hq⟩ := List.exists_mem_of_ne_nil _ hnil
      rw [mem_expected] at hq
      exact ⟨q, hq.1, hq.2.1, (hhit q).mp hq.2.2⟩
    · rintro ⟨q, hq1, hq2, hq3⟩
      have : q ∈ expected w cmd fs g files :=
        (mem_expected w cmd fs g files q).mpr ⟨hq1, hq2, (hhit q).mpr hq3⟩
      exact List.ne_nil_of_mem this

/-- C3, as amended: a path that `os.Stat` fails on, or whose extension (the
text after the last dot of its last element) is excluded, or that is not a
regular file, is never passed to `os.Open`; the body of the loop only logs a
message for it; and the loop ends the same way, with the same map, as on the
input list without these paths. -/
theorem skipped_paths_ignored (w : World) (cmd : zipCommand) (fs : List DiskFile)
    (files : List String) :
    (∀ p, skipped cmd fs p = true →
        p ∉ openAttempts (classifyLoop w cmd files (initial fs)).state.trace)
      ∧ (∀ st p, skipped cmd st.fs p = true →
          ∃ lvl fmt, classifyFile w cmd st p =
            Outcome.ok { st with trace := st.trace ++ [Event.message lvl fmt [p]] })
      ∧ (classifyLoop w cmd (files.filter fun p => !skipped cmd fs p) (initial fs)).exited =
          (classifyLoop w cmd files (initial fs)).exited
      ∧ (classifyLoop w cmd (files.filter fun p => !skipped cmd fs p)
            (initial fs)).state.gameFiles =
          (classifyLoop w cmd files (initial fs)).state.gameFiles := by
  refine ⟨?_, ?_, ?_, ?_⟩
  · intro p hp hmem
    have := classifyLoop_openAttempts w cmd files (initial fs)
      (by simp [initial, openAttempts]) p hmem
    simp only [initial] at this
    rw [hp] at this
    cases this
  · intro st p hp
    exact classifyFile_skipped w cmd st p hp
  · rw [(classify_initial w cmd fs _).1, (classify_initial w cmd fs files).1,
      classifyPure_filter]
  · rw [(classify_initial w cmd fs _).2, (classify_initial w cmd fs files).2,
      classifyPure_filter]

/-- On two input lists that are permutations of each other the classification
loop ends the same way, and when it ends each game has aggregates that are
permutations of each other, an entry in one map exactly when it has one in the
other, and the same result of the test of line 76. -/
theorem classify_perm (w : World) (cmd : zipCommand)
    (fs : List DiskFile) (l1 l2 : List String) (hp : l1.Perm l2) :
    (classifyLoop w cmd l1 (initial fs)).exited = (classifyLoop w cmd l2 (initial fs)).exited
      ∧ ((classifyLoop w cmd l1 (initial fs)).exited = false → ∀ g : Node,
          (found (classifyLoop w cmd l1 (initial fs)).state.gameFiles g).Perm
              (found (classifyLoop w cmd l2 (initial fs)).state.gameFiles g)
            ∧ (mapGet (classifyLoop w cmd l1 (initial fs)).state.gameFiles g = none ↔
                mapGet (classifyLoop w cmd l2 (initial fs)).state.gameFiles g = none)
            ∧ judgedComplete (classifyLoop w cmd l1 (initial fs)).state.gameFiles g =
                judgedComplete (classifyLoop w cmd l2 (initial fs)).state.gameFiles g) := by
  obtain ⟨e1, m1⟩ := classify_initial w cmd fs l1
  obtain ⟨e2, m2⟩ := classify_initial w cmd fs l2
  have hany : (classifyPure w cmd fs l1 []).1 = (classifyPure w cmd fs l2 []).1 := by
    rw [classifyPure_exited, classifyPure_exited, Bool.eq_iff_iff, List.any_eq_true,
      List.any_eq_true]
    constructor
    · rintro ⟨x, hx, hx2⟩
      exact ⟨x, hp.mem_iff.mp hx, hx2⟩
    · rintro ⟨x, hx, hx2⟩
      exact ⟨x, hp.mem_iff.mpr hx, hx2⟩
  refine ⟨by rw [e1, e2, hany], ?_⟩
  intro hex g
  have hex1 : (classifyPure w cmd fs l1 []).1 = false := by rw [← e1]; exact hex
  have hex2 : (classifyPure w cmd fs l2 []).1 = false := by rw [← hany]; exact hex1
  have hn1 : NoEmptyEntry (classifyPure w cmd fs l1 []).2 :=
    classifyPure_noEmpty w cmd fs l1 [] noEmpty_nil
  have hn2 : NoEmptyEntry (classifyPure w cmd fs l2 []).2 :=
    classifyPure_noEmpty w cmd fs l2 [] noEmpty_nil
  have hperm : (found (classifyPure w cmd fs l1 []).2 g).Perm
      (found (classifyPure w cmd fs l2 []).2 g) := by
    rw [classifyPure_found w cmd fs l1 [] hex1 g, classifyPure_found w cmd fs l2 [] hex2 g]
    exact List.Perm.append_left _ (expected_perm w cmd fs g l1 l2 hp)
  have hnil : found (classifyPure w cmd fs l1 []).2 g = [] ↔
      found (classifyPure w cmd fs l2 []).2 g = [] := by
    constructor
    · intro h; exact List.Perm.eq_nil (h ▸ hperm.symm)
    · intro h; exact List.Perm.eq_nil (h ▸ hperm)
  rw [m1, m2]
  refine ⟨hperm, ?_, ?_⟩
  · have a1 := found_ne_nil_iff _ hn1 g
    have a2 := found_ne_nil_iff _ hn2 g
    constructor
    · intro h
      by_contra hc
      exact (a2.mpr hc) (hnil.mp (by by_contra hx; exact (a1.mp hx) h))
    · intro h
      by_contra hc
      exact (a1.mpr hc) (hnil.mpr (by by_contra hx; exact (a2.mp hx) h))
  · have hd : decide (found (classifyPure w cmd fs l1 []).2 g ≠ []) =
        decide (found (classifyPure w cmd fs l2 []).2 g ≠ []) :=
      decide_eq_decide.mpr (not_congr hnil)
    rw [judgedComplete_eq _ hn1, judgedComplete_eq _ hn2, hperm.length_eq, hd]

/-! ## Lemmas: traces -/

theorem Grows.same (es : GameFiles) (st : State) : Grows es st st :=
  ⟨[], by simp, by simp⟩

theorem Grows.next {es : GameFiles} {a b c : State} (h1 : Grows es a b) (h2 : Grows es b c) :
    Grows es a c := by
  obtain ⟨e1, t1, k1⟩ := h1
  obtain ⟨e2, t2, k2⟩ := h2
  refine ⟨e1 ++ e2, by rw [t2, t1, List.append_assoc], ?_⟩
  intro e he
  rcases List.mem_append.mp he with h | h
  · exact k1 e h
  · exact k2 e h

theorem allowed_mono {es es' : GameFiles} (h : ∀ x ∈ es, x ∈ es') (e : Event)
    (ha : allowed es e) : allowed es' e := by
  cases e with
  | backend g x z l => exact ⟨h _ ha.1, ha.2⟩
  | remove p ok =>
    obtain ⟨g, l, h1, h2, h3⟩ := ha
    exact ⟨g, l, h _ h1, h2, h3⟩
  | _ => trivial

theorem Grows.mono {es es' : GameFiles} {a b : State} (h : ∀ x ∈ es, x ∈ es')
    (hg : Grows es a b) : Grows es' a b := by
  obtain ⟨evs, t, k⟩ := hg
  exact ⟨evs, t, fun e he => allowed_mono h e (k e he)⟩

theorem Quiet.still (st : State) : Quiet st st :=
  ⟨rfl, rfl, Grows.same _ _⟩

theorem Quiet.seq {a b c : State} (h1 : Quiet a b) (h2 : Quiet b c) : Quiet a c :=
  ⟨h2.1.trans h1.1, h2.2.1.trans h1.2.1, h1.2.2.next h2.2.2⟩

theorem Quiet.logged {st s : State} {e : Event} (h : Quiet st s) (he : allowed [] e) :
    Quiet st (s.log e) :=
  ⟨h.1, h.2.1, h.2.2.next ⟨[e], rfl, by simpa using he⟩⟩

theorem Quiet.deferredSet {st s : State} (d : List String) (h : Quiet st s) :
    Quiet st { s with deferred := d } :=
  ⟨h.1, h.2.1, h.2.2⟩

theorem Quiet.grows {a b : State} (es : GameFiles) (h : Quiet a b) : Grows es a b :=
  Grows.mono (by simp) h.2.2

theorem grows_archiveCount {a b : State} (h : Grows [] a b) (g : Node) :
    archiveCount g b.trace = archiveCount g a.trace := by
  obtain ⟨evs, t, k⟩ := h
  have : List.countP (isBackendOf g) evs = 0 := by
    rw [List.countP_eq_zero]
    intro e he
    have := k e he
    cases e <;> simp_all [allowed, isBackendOf]
  simp [archiveCount, t, List.countP_append, this]

theorem grows_removeAttempts {a b : State} (h : Grows [] a b) :
    removeAttempts b.trace = removeAttempts a.trace := by
  obtain ⟨evs, t, k⟩ := h
  have : List.filterMap removedPath evs = [] := by
    rw [List.filterMap_eq_nil_iff]
    intro e he
    have := k e he
    cases e <;> simp_all [allowed, removedPath]
  simp [removeAttempts, t, List.filterMap_append, this]

/-- Sequencing after `errorExit`. -/
theorem andThen_errorExit (err : Bool) (st : State) (k : State → Outcome) :
    (errorExit err st).andThen k = if err then Outcome.exit st else k st := by
  cases err <;> rfl

theorem quiet_errorExit (P : State → Prop) (err : Bool) (st : State) (k : State → Outcome)
    (h1 : P st) (h2 : P (k st).state) : P ((errorExit err st).andThen k).state := by
  rw [andThen_errorExit]
  cases err
  · simpa using h2
  · simpa [Outcome.state] using h1

theorem state_andThen (P : State → Prop) (o : Outcome) (k : State → Outcome)
    (h1 : P o.state) (h2 : ∀ s, P s → P (k s).state) :
    P (o.andThen k).state := by
  cases o with
  | ok s => exact h2 s h1
  | exit s => exact h1

theorem runDeferred_quiet (st : State) : Quiet st (runDeferred st) := by
  refine ⟨rfl, rfl, _, rfl, ?_⟩
  intro e he
  obtain ⟨x, _, hx⟩ := List.mem_map.mp he
  rw [← hx]
  trivial

/-! ## Lemmas: the archive backends -/

theorem externalZip_quiet (w : World) (zipFileName : String) (fileList : List String)
    (st : State) : Quiet st (externalZip w zipFileName fileList st).state := by
  unfold externalZip errorExit
  by_cases h : w.runErr ([zipFileName] ++ fileList) = true
  · simp only [h, if_true, Outcome.state]
    exact (Quiet.still st).logged (by trivial)
  · simp only [h, if_false, Outcome.state]
    exact (Quiet.still st).logged (by trivial)

theorem zipFiles_quiet (w : World) (zipFileName : String) (fileList : List String)
    (st : State) : Quiet st (zipFiles w zipFileName fileList st).state := by
  induction fileList generalizing st with
  | nil => exact Quiet.still st
  | cons p rest ih =>
    unfold zipFiles
    apply quiet_errorExit (Quiet st)
    · exact ((Quiet.still st).logged (by trivial)).logged (by trivial)
    · have q1 : Quiet st { (st.log (Event.output "Writing %s to %s..." [Base p, zipFileName])).log
          (Event.osOpen p (!osOpenErr w
            (st.log (Event.output "Writing %s to %s..." [Base p, zipFileName])).fs p)) with
          deferred := p :: ((st.log (Event.output "Writing %s to %s..."
            [Base p, zipFileName])).log (Event.osOpen p (!osOpenErr w
            (st.log (Event.output "Writing %s to %s..." [Base p, zipFileName])).fs p))).deferred } :=
        (((Quiet.still st).logged (by trivial)).logged (by trivial)).deferredSet _
      dsimp only
      split
      · simpa [errorExit, Outcome.state] using q1
      · apply quiet_errorExit (Quiet st)
        · exact q1.logged (by trivial)
        · exact Quiet.seq ((q1.logged (by trivial)).logged (by trivial) |>.logged (by trivial)) (ih _)

theorem internalZip_quiet (w : World) (zipFileName : String) (fileList : List String)
    (st : State) : Quiet st (internalZip w zipFileName fileList st).state := by
  unfold internalZip
  have q0 : Quiet st { st with deferred := [] } := (Quiet.still st).deferredSet _
  apply quiet_errorExit (Quiet st)
  · exact q0.logged (by trivial)
  · apply state_andThen (Quiet st)
    · exact ((q0.logged (e := Event.osCreate zipFileName (!w.createErr zipFileName))
        (by trivial)).deferredSet (zipFileName :: [])).seq
          (zipFiles_quiet w zipFileName fileList _)
    · intro s q2
      apply quiet_errorExit (Quiet st)
      · exact q2.logged (by trivial)
      · exact Quiet.deferredSet _ ((q2.logged (e := Event.zipperClose zipFileName
          (!w.zipperCloseErr zipFileName)) (by trivial)).seq (runDeferred_quiet _))

/-! ## Lemmas: removal and the loop over the games -/

theorem osStat_filter (fs : List DiskFile) (q p : String) (h : p ≠ q) :
    osStat (fs.filter fun f => decide (f.path ≠ q)) p = osStat fs p := by
  unfold osStat
  induction fs with
  | nil => rfl
  | cons f rest ih =>
    by_cases hf : f.path = q
    · have hfp : ¬ f.path = p := fun h1 => h (h1.symm.trans hf)
      rw [List.filter_cons_of_neg (by simp [hf]), ih,
        List.find?_cons_of_neg _ (by simp [hfp])]
    · rw [List.filter_cons_of_pos (by simp [hf])]
      by_cases hfp : f.path = p
      · rw [List.find?_cons_of_pos _ (by simp [hfp]), List.find?_cons_of_pos _ (by simp [hfp])]
      · rw [List.find?_cons_of_neg _ (by simp [hfp]), List.find?_cons_of_neg _ (by simp [hfp]),
          ih]

theorem osStat_osRemove (w : World) (fs : List DiskFile) (q p : String) (h : p ≠ q) :
    osStat (osRemove w fs q) p = osStat fs p := by
  unfold osRemove
  by_cases he : osRemoveErr w fs q = true
  · simp [he]
  · simp only [he, if_false]
    exact osStat_filter fs q p h

theorem removeFiles_cons (w : World) (p : String) (rest : List String) (st : State) :
    removeFiles w (p :: rest) st =
      removeFiles w rest { st with fs := osRemove w st.fs p,
                                   trace := st.trace ++ removalEvents w st.fs p } := by
  unfold removalEvents
  by_cases he : osRemoveErr w st.fs p = true
  · simp [removeFiles, State.log, he]
  · simp [removeFiles, State.log, he]

theorem removeFiles_gameFiles (w : World) (l : List String) (st : State) :
    (removeFiles w l st).gameFiles = st.gameFiles := by
  induction l generalizing st with
  | nil => rfl
  | cons p rest ih => rw [removeFiles_cons, ih]

theorem removeFiles_osStat (w : World) (l : List String) (st : State) (p : String)
    (h : p ∉ l) : osStat (removeFiles w l st).fs p = osStat st.fs p := by
  induction l generalizing st with
  | nil => rfl
  | cons q rest ih =>
    have hq : p ≠ q := fun h1 => h (h1 ▸ List.mem_cons_self _ _)
    have hr : p ∉ rest := fun h1 => h (List.mem_cons_of_mem _ h1)
    rw [removeFiles_cons, ih _ hr]
    exact osStat_osRemove w _ q p hq

/-- The trace of the removal loop: `os.Remove` is called on each path of the
list, in order, and no backend or external program is run. -/
theorem removeFiles_trace (w : World) (l : List String) (st : State) :
    ∃ evs, (removeFiles w l st).trace = st.trace ++ evs
      ∧ evs.filterMap removedPath = l
      ∧ (∀ g, evs.countP (isBackendOf g) = 0)
      ∧ evs.filterMap execCall = [] := by
  induction l generalizing st with
  | nil => exact ⟨[], by simp [removeFiles], rfl, fun _ => rfl, rfl⟩
  | cons p rest ih =>
    rw [removeFiles_cons]
    obtain ⟨evs, h1, h2, h3, h4⟩ := ih
      ({ st with fs := osRemove w st.fs p, trace := st.trace ++ removalEvents w st.fs p })
    refine ⟨removalEvents w st.fs p ++ evs, ?_, ?_, ?_, ?_⟩
    · rw [h1, List.append_assoc]
    · rw [List.filterMap_append, h2]
      unfold removalEvents
      by_cases he : osRemoveErr w st.fs p = true <;> simp [he, removedPath]
    · intro g
      rw [List.countP_append, h3 g]
      unfold removalEvents
      by_cases he : osRemoveErr w st.fs p = true <;> simp [he, isBackendOf]
    · rw [List.filterMap_append, h4]
      unfold removalEvents
      by_cases he : osRemoveErr w st.fs p = true <;> simp [he, execCall]

theorem zipBackend_quiet (w : World) (cmd : zipCommand) (zipPath : String)
    (fileList : List String) (st : State) :
    Quiet st (zipBackend w cmd zipPath fileList st).state := by
  unfold zipBackend
  by_cases h : cmd.InfoZip = true
  · simp only [h, if_true]
    exact externalZip_quiet w zipPath fileList st
  · simp only [h, if_false]
    exact internalZip_quiet w zipPath fileList st

theorem cleanUp_gameFiles (w : World) (cmd : zipCommand) (l : List String) (st : State) :
    (cleanUp w cmd l st).gameFiles = st.gameFiles := by
  unfold cleanUp
  by_cases h : cmd.Remove = true
  · rw [if_pos h, removeFiles_gameFiles]; rfl
  · rw [if_neg h]

theorem cleanUp_osStat (w : World) (cmd : zipCommand) (l : List String) (st : State)
    (p : String) (h : p ∉ l) : osStat (cleanUp w cmd l st).fs p = osStat st.fs p := by
  unfold cleanUp
  by_cases hr : cmd.Remove = true
  · rw [if_pos hr, removeFiles_osStat w l _ p h]; rfl
  · rw [if_neg hr]

theorem cleanUp_trace (w : World) (cmd : zipCommand) (l : List String) (st : State) :
    ∃ evs, (cleanUp w cmd l st).trace = st.trace ++ evs
      ∧ evs.filterMap removedPath = (if cmd.Remove then l else [])
      ∧ (∀ g, evs.countP (isBackendOf g) = 0)
      ∧ evs.filterMap execCall = [] := by
  unfold cleanUp
  by_cases hr : cmd.Remove = true
  · simp only [hr, if_true]
    obtain ⟨evs, h1, h2, h3, h4⟩ := removeFiles_trace w l (st.log (Event.println "Cleaning up..."))
    refine ⟨Event.println "Cleaning up..." :: evs, ?_, ?_, ?_, ?_⟩
    · rw [h1]; simp [State.log]
    · simp [List.filterMap_cons, removedPath, h2]
    · intro g; simp [List.countP_cons, isBackendOf, h3 g]
    · simp [List.filterMap_cons, execCall, h4]
  · rw [if_neg hr]
    exact ⟨[], by simp, by simp [hr], fun _ => rfl, rfl⟩

theorem removeFiles_grows (w : World) (es : GameFiles) (game : Node) (fl : List String)
    (hmem : (game, fl) ∈ es) (hc : game.roms.length = fl.length) (l : List String)
    (hl : ∀ p ∈ l, p ∈ fl) (st : State) : Grows es st (removeFiles w l st) := by
  induction l generalizing st with
  | nil => exact Grows.same es st
  | cons p rest ih =>
    rw [removeFiles_cons]
    have hp : p ∈ fl := hl p (List.mem_cons_self _ _)
    refine Grows.next ⟨removalEvents w st.fs p, rfl, ?_⟩
      (ih (fun q hq => hl q (List.mem_cons_of_mem _ hq)) _)
    intro e he
    unfold removalEvents at he
    cases herr : osRemoveErr w st.fs p with
    | true =>
      simp only [herr, if_true, List.mem_append, List.mem_cons, List.mem_singleton,
        List.not_mem_nil, or_false] at he
      rcases he with (he | he) | he
      · rw [he]; trivial
      · rw [he]; exact ⟨game, fl, hmem, hc, hp⟩
      · rw [he]; trivial
    | false =>
      simp only [herr, Bool.false_eq_true, if_false, List.append_nil, List.mem_cons,
        List.mem_singleton, List.not_mem_nil, or_false] at he
      rcases he with he | he
      · rw [he]; trivial
      · rw [he]; exact ⟨game, fl, hmem, hc, hp⟩

theorem Grows.andLog {es : GameFiles} {st s : State} {e : Event} (h : Grows es st s)
    (he : allowed es e) : Grows es st (s.log e) :=
  h.next ⟨[e], rfl, by simpa using he⟩

theorem cleanUp_grows (w : World) (cmd : zipCommand) (es : GameFiles) (game : Node)
    (fl : List String) (hmem : (game, fl) ∈ es) (hc : game.roms.length = fl.length)
    (st : State) : Grows es st (cleanUp w cmd fl st) := by
  unfold cleanUp
  by_cases hr : cmd.Remove = true
  · simp only [hr, if_true]
    exact ((Grows.same es st).andLog (by trivial)).next
      (removeFiles_grows w es game fl hmem hc fl (fun _ h => h) _)
  · rw [if_neg hr]
    exact Grows.same es st

/-- The body of the loop on an entry that fails the test of line 76. -/
theorem archiveGame_incomplete (w : World) (cmd : zipCommand) (game : Node)
    (fl : List String) (st : State) (h : ¬ game.roms.length = fl.length) :
    archiveGame w cmd game fl st =
      Outcome.ok (st.log (Event.message Level.levelInfo "Game %s needs %d file(s), found %d"
        [game.name, toString game.roms.length, toString fl.length])) := by
  simp [archiveGame, h]

/-- The body of the loop on an entry that passes the test of line 76. -/
theorem archiveGame_complete (w : World) (cmd : zipCommand) (game : Node)
    (fl : List String) (st : State) (h : game.roms.length = fl.length) :
    archiveGame w cmd game fl st =
      (zipBackend w cmd (w.Join cmd.OutputDir (game.name ++ ".zip")) fl
        (announce w cmd game fl (st.log (Event.message Level.levelInfo
          "Game %s needs %d file(s), found %d"
          [game.name, toString game.roms.length, toString fl.length])))).andThen fun s =>
        Outcome.ok ((cleanUp w cmd fl s).log
          (Event.output "Finished writing %s" [game.name ++ ".zip"])) := by
  simp [archiveGame, h]

theorem archiveGame_gameFiles (w : World) (cmd : zipCommand) (game : Node)
    (fl : List String) (st : State) :
    (archiveGame w cmd game fl st).state.gameFiles = st.gameFiles := by
  by_cases h : game.roms.length = fl.length
  · rw [archiveGame_complete w cmd game fl st h]
    apply state_andThen (fun s => s.gameFiles = st.gameFiles)
    · rw [(zipBackend_quiet w cmd _ fl _).2.1]; rfl
    · intro s hs
      simp only [Outcome.state, State.log]
      rw [cleanUp_gameFiles]; exact hs
  · rw [archiveGame_incomplete w cmd game fl st h]; rfl

theorem archiveGame_grows (w : World) (cmd : zipCommand) (es : GameFiles) (game : Node)
    (fl : List String) (hmem : (game, fl) ∈ es) (st : State) :
    Grows es st (archiveGame w cmd game fl st).state := by
  by_cases h : game.roms.length = fl.length
  · rw [archiveGame_complete w cmd game fl st h]
    have g0 : Grows es st (announce w cmd game fl (st.log (Event.message Level.levelInfo
        "Game %s needs %d file(s), found %d"
        [game.name, toString game.roms.length, toString fl.length]))) := by
      unfold announce
      exact ((((Grows.same es st).andLog (by trivial)).andLog (by trivial)).andLog
        (by trivial)).andLog ⟨hmem, h⟩
    apply state_andThen (Grows es st)
    · exact g0.next ((zipBackend_quiet w cmd _ fl _).grows es)
    · intro s hs
      exact (hs.next (cleanUp_grows w cmd es game fl hmem h s)).andLog (by trivial)
  · rw [archiveGame_incomplete w cmd game fl st h]
    exact (Grows.same es st).andLog (by trivial)

theorem archiveCount_log (g : Node) (s : State) (e : Event) :
    archiveCount g (s.log e).trace =
      archiveCount g s.trace + (if isBackendOf g e then 1 else 0) := by
  simp [archiveCount, State.log, List.countP_append, List.countP_cons]

theorem archiveGame_archiveCount (w : World) (cmd : zipCommand) (game : Node)
    (fl : List String) (st : State) (g : Node) :
    archiveCount g (archiveGame w cmd game fl st).state.trace =
      archiveCount g st.trace +
        (if game = g ∧ game.roms.length = fl.length then 1 else 0) := by
  by_cases h : game.roms.length = fl.length
  · rw [archiveGame_complete w cmd game fl st h]
    apply state_andThen (fun s => archiveCount g s.trace = archiveCount g st.trace +
      (if game = g ∧ game.roms.length = fl.length then 1 else 0))
    · rw [grows_archiveCount (zipBackend_quiet w cmd _ fl _).2.2 g]
      unfold announce
      simp only [archiveCount_log, isBackendOf, h, and_true]
      by_cases hg : game = g <;> simp [hg]
    · intro s hs
      obtain ⟨evs, h1, _, h3, _⟩ := cleanUp_trace w cmd fl s
      simp only [Outcome.state, archiveCount_log, isBackendOf]
      rw [← hs]
      simp [archiveCount, h1, List.countP_append, h3 g]
  · rw [archiveGame_incomplete w cmd game fl st h]
    simp [Outcome.state, archiveCount_log, isBackendOf, h]

theorem archiveGame_osStat (w : World) (cmd : zipCommand) (game : Node)
    (fl : List String) (st : State) (p : String)
    (hp : game.roms.length = fl.length → p ∉ fl) :
    osStat (archiveGame w cmd game fl st).state.fs p = osStat st.fs p := by
  by_cases h : game.roms.length = fl.length
  · rw [archiveGame_complete w cmd game fl st h]
    apply state_andThen (fun s => osStat s.fs p = osStat st.fs p)
    · rw [(zipBackend_quiet w cmd _ fl _).1]; rfl
    · intro s hs
      simp only [Outcome.state, State.log]
      rw [cleanUp_osStat w cmd fl s p (hp h)]; exact hs
  · rw [archiveGame_incomplete w cmd game fl st h]; rfl

/-! ## Lemmas: the loop over the entries of the map -/

theorem archiveLoop_gameFiles (w : World) (cmd : zipCommand) (es : GameFiles) (st : State) :
    (archiveLoop w cmd es st).state.gameFiles = st.gameFiles := by
  induction es generalizing st with
  | nil => rfl
  | cons e rest ih =>
    obtain ⟨game, fl⟩ := e
    unfold archiveLoop
    apply state_andThen (fun s => s.gameFiles = st.gameFiles)
    · exact archiveGame_gameFiles w cmd game fl st
    · intro s hs
      rw [ih]; exact hs

theorem archiveLoop_grows (w : World) (cmd : zipCommand) (all es : GameFiles)
    (hsub : ∀ x ∈ es, x ∈ all) (st : State) :
    Grows all st (archiveLoop w cmd es st).state := by
  induction es generalizing st with
  | nil => exact Grows.same all st
  | cons e rest ih =>
    obtain ⟨game, fl⟩ := e
    unfold archiveLoop
    apply state_andThen (Grows all st)
    · exact archiveGame_grows w cmd all game fl (hsub _ (List.mem_cons_self _ _)) st
    · intro s hs
      exact hs.next (ih (fun x hx => hsub x (List.mem_cons_of_mem _ hx)) s)

theorem archiveLoop_osStat (w : World) (cmd : zipCommand) (es : GameFiles) (st : State)
    (p : String) (hp : ∀ g l, (g, l) ∈ es → g.roms.length = l.length → p ∉ l) :
    osStat (archiveLoop w cmd es st).state.fs p = osStat st.fs p := by
  induction es generalizing st with
  | nil => rfl
  | cons e rest ih =>
    obtain ⟨game, fl⟩ := e
    unfold archiveLoop
    apply state_andThen (fun s => osStat s.fs p = osStat st.fs p)
    · exact archiveGame_osStat w cmd game fl st p (hp game fl (List.mem_cons_self _ _))
    · intro s hs
      rw [ih s (fun g l hm => hp g l (List.mem_cons_of_mem _ hm))]; exact hs

/-- The number of backend calls for a game after the loop: at most one more
for each entry of the game that passes the test, and exactly that when the
loop ends. -/
theorem archiveLoop_archiveCount (w : World) (cmd : zipCommand) (es : GameFiles)
    (st : State) (g : Node) :
    archiveCount g (archiveLoop w cmd es st).state.trace ≤
        archiveCount g st.trace +
          es.countP (fun e => decide (e.1 = g) && decide (e.1.roms.length = e.2.length))
      ∧ ((archiveLoop w cmd es st).exited = false →
          archiveCount g (archiveLoop w cmd es st).state.trace =
            archiveCount g st.trace +
              es.countP (fun e => decide (e.1 = g) && decide (e.1.roms.length = e.2.length))) := by
  induction es generalizing st with
  | nil => simp [archiveLoop, Outcome.state]
  | cons e rest ih =>
    obtain ⟨game, fl⟩ := e
    have hg := archiveGame_archiveCount w cmd game fl st g
    have hcount : List.countP (fun e : Node × List String =>
          decide (e.1 = g) && decide (e.1.roms.length = e.2.length)) ((game, fl) :: rest) =
        List.countP (fun e : Node × List String =>
          decide (e.1 = g) && decide (e.1.roms.length = e.2.length)) rest +
          (if game = g ∧ game.roms.length = fl.length then 1 else 0) := by
      rw [List.countP_cons]
      by_cases h1 : game = g <;> by_cases h2 : game.roms.length = fl.length <;> simp [h1, h2]
    unfold archiveLoop
    cases ho : archiveGame w cmd game fl st with
    | exit s =>
      rw [ho] at hg
      simp only [Outcome.state] at hg
      simp only [Outcome.andThen, Outcome.state, Outcome.exited]
      refine ⟨?_, fun h => by cases h⟩
      rw [hg, hcount]
      omega
    | ok s =>
      rw [ho] at hg
      simp only [Outcome.state] at hg
      simp only [Outcome.andThen]
      obtain ⟨i1, i2⟩ := ih s
      rw [hg] at i1 i2
      rw [hcount]
      refine ⟨by omega, fun h => ?_⟩
      have := i2 h
      omega

/-! ## Lemmas: `Execute` -/

theorem classifyFile_grows (w : World) (cmd : zipCommand) (st : State) (p : String) :
    Grows [] st (classifyFile w cmd st p).state := by
  cases h : skipped cmd st.fs p with
  | true =>
    obtain ⟨lvl, fmt, he⟩ := classifyFile_skipped w cmd st p h
    rw [he]
    exact (Grows.same [] st).andLog (by trivial)
  | false =>
    rw [classifyFile_kept w cmd st p h]
    by_cases ho : osOpenErr w st.fs p = true
    · rw [if_pos ho]
      exact (Grows.same [] st).andLog (by trivial)
    · rw [if_neg ho]
      refine ⟨_, rfl, ?_⟩
      intro e he
      simp only [List.mem_cons, List.mem_singleton, List.not_mem_nil, or_false] at he
      rcases he with he | he <;> (rw [he]; trivial)

theorem classifyLoop_grows (w : World) (cmd : zipCommand) (files : List String) (st : State) :
    Grows [] st (classifyLoop w cmd files st).state :=
  classifyLoop_invariant w cmd (fun s => Grows [] st s)
    (fun s p hs => Grows.next hs (classifyFile_grows w cmd s p)) files st (Grows.same [] st)

theorem judgedComplete_iff (m : GameFiles) (g : Node) :
    judgedComplete m g = true ↔ ∃ l, mapGet m g = some l ∧ g.roms.length = l.length := by
  unfold judgedComplete
  cases mapGet m g with
  | none => simp
  | some l => simp

/-- The second half of `Execute`, from the state classification ends in. -/
theorem archivePhase (w : World) (cmd : zipCommand)
    (horder : ∀ m, (w.rangeOrder m).Perm m) (s : State)
    (hnd : (s.gameFiles.map Prod.fst).Nodup) :
    let o := (archiveLoop w cmd (w.rangeOrder s.gameFiles) s).andThen fun st =>
      Outcome.ok (runDeferred st)
    o.state.gameFiles = s.gameFiles
      ∧ Grows s.gameFiles s o.state
      ∧ (∀ p, (∀ g, judgedComplete s.gameFiles g = true → p ∉ found s.gameFiles g) →
          osStat o.state.fs p = osStat s.fs p)
      ∧ (∀ g, archiveCount g o.state.trace ≤
            archiveCount g s.trace + (if judgedComplete s.gameFiles g then 1 else 0))
      ∧ (o.exited = false → ∀ g, archiveCount g o.state.trace =
            archiveCount g s.trace + (if judgedComplete s.gameFiles g then 1 else 0)) := by
  intro o
  have hmem : ∀ x, x ∈ w.rangeOrder s.gameFiles ↔ x ∈ s.gameFiles :=
    fun x => (horder s.gameFiles).mem_iff
  have hcnt : ∀ g, (w.rangeOrder s.gameFiles).countP
      (fun e => decide (e.1 = g) && decide (e.1.roms.length = e.2.length)) =
      (if judgedComplete s.gameFiles g then 1 else 0) := by
    intro g
    rw [(horder s.gameFiles).countP_eq, countP_complete s.gameFiles hnd g]
  have hloop := archiveLoop_archiveCount w cmd (w.rangeOrder s.gameFiles) s
  cases hl : archiveLoop w cmd (w.rangeOrder s.gameFiles) s with
  | exit t =>
    have ho : o = Outcome.exit t := by simp only [o, hl, Outcome.andThen]
    have hgf := archiveLoop_gameFiles w cmd (w.rangeOrder s.gameFiles) s
    have hgr := archiveLoop_grows w cmd s.gameFiles (w.rangeOrder s.gameFiles)
      (fun x hx => (hmem x).mp hx) s
    rw [hl] at hgf hgr
    rw [ho]
    refine ⟨hgf, hgr, ?_, ?_, (fun h => by cases h)⟩
    · intro p hp
      have := archiveLoop_osStat w cmd (w.rangeOrder s.gameFiles) s p (by
        intro g l hm hc hpl
        have hget := mapGet_of_mem s.gameFiles hnd g l ((hmem _).mp hm)
        exact hp g ((judgedComplete_iff _ _).mpr ⟨l, hget, hc⟩) (by simpa [found, hget] using hpl))
      rw [hl] at this
      exact this
    · intro g
      have := (hloop g).1
      rw [hl, hcnt g] at this
      exact this
  | ok t =>
    have ho : o = Outcome.ok (runDeferred t) := by simp only [o, hl, Outcome.andThen]
    have hgf := archiveLoop_gameFiles w cmd (w.rangeOrder s.gameFiles) s
    have hgr := archiveLoop_grows w cmd s.gameFiles (w.rangeOrder s.gameFiles)
      (fun x hx => (hmem x).mp hx) s
    rw [hl] at hgf hgr
    have hq := runDeferred_quiet t
    have hcount : ∀ g, archiveCount g (runDeferred t).trace =
        archiveCount g s.trace + (if judgedComplete s.gameFiles g then 1 else 0) := by
      intro g
      have := (hloop g).2
      rw [hl, hcnt g] at this
      rw [grows_archiveCount hq.2.2 g]
      exact this rfl
    rw [ho]
    refine ⟨hq.2.1.trans hgf, hgr.next (hq.grows _), ?_, fun g => le_of_eq (hcount g),
      fun _ g => hcount g⟩
    intro p hp
    have := archiveLoop_osStat w cmd (w.rangeOrder s.gameFiles) s p (by
      intro g l hm hc hpl
      have hget := mapGet_of_mem s.gameFiles hnd g l ((hmem _).mp hm)
      exact hp g ((judgedComplete_iff _ _).mpr ⟨l, hget, hc⟩) (by simpa [found, hget] using hpl))
    rw [hl] at this
    simp only [Outcome.state] at this ⊢
    rw [hq.1]
    exact this

/-- The facts about a run of `Execute` the properties below rest on: the map at the end
is the one classification built; it has one entry per game, none empty, of
paths `os.Stat` succeeded on; the trace holds backend calls and removals only
for entries that pass the test of line 76. -/
theorem Execute_facts (w : World) (cmd : zipCommand) (fs : List DiskFile)
    (horder : ∀ m, (w.rangeOrder m).Perm m) :
    (∀ files, inputFiles w cmd = some files →
        (Execute w cmd fs).state.gameFiles =
          (classifyLoop w cmd files (initial fs)).state.gameFiles)
      ∧ NoEmptyEntry (Execute w cmd fs).state.gameFiles
      ∧ (∀ g p, p ∈ found (Execute w cmd fs).state.gameFiles g → (osStat fs p).isSome = true)
      ∧ Grows (Execute w cmd fs).state.gameFiles (initial fs) (Execute w cmd fs).state
      ∧ (∀ p, (∀ g, judgedComplete (Execute w cmd fs).state.gameFiles g = true →
            p ∉ found (Execute w cmd fs).state.gameFiles g) →
          osStat (Execute w cmd fs).state.fs p = osStat fs p)
      ∧ (∀ g, archiveCount g (Execute w cmd fs).state.trace ≤
            (if judgedComplete (Execute w cmd fs).state.gameFiles g then 1 else 0))
      ∧ ((Execute w cmd fs).exited = false → ∀ g,
          archiveCount g (Execute w cmd fs).state.trace =
            (if judgedComplete (Execute w cmd fs).state.gameFiles g then 1 else 0))
      ∧ ((Execute w cmd fs).state.gameFiles.map Prod.fst).Nodup := by
  cases hin : inputFiles w cmd with
  | none =>
    have he : Execute w cmd fs = Outcome.exit (initial fs) := by
      simp [Execute, hin, errorExit]
    rw [he]
    refine ⟨(fun files h => by cases h), noEmpty_nil, ?_, Grows.same _ _, fun _ _ => rfl, ?_,
      (fun h => by cases h), by simp [Outcome.state, initial]⟩
    · intro g p hp
      simp [Outcome.state, initial, found, mapGet] at hp
    · intro g
      simp [Outcome.state, initial, archiveCount]
  | some files =>
    have he : Execute w cmd fs = (classifyLoop w cmd files (initial fs)).andThen fun st =>
        (archiveLoop w cmd (w.rangeOrder st.gameFiles) st).andThen fun st =>
          Outcome.ok (runDeferred st) := by
      simp [Execute, hin]
    obtain ⟨_, hmap⟩ := classify_initial w cmd fs files
    have hne : NoEmptyEntry (classifyLoop w cmd files (initial fs)).state.gameFiles := by
      rw [hmap]; exact classifyPure_noEmpty w cmd fs files [] noEmpty_nil
    have hnd : ((classifyLoop w cmd files (initial fs)).state.gameFiles.map Prod.fst).Nodup := by
      rw [hmap]; exact classifyPure_nodup w cmd fs files [] (by simp)
    have hst : ∀ g p, p ∈ found (classifyLoop w cmd files (initial fs)).state.gameFiles g →
        (osStat fs p).isSome = true := by
      rw [hmap]
      exact classifyPure_stat w cmd fs files [] (by simp [found, mapGet])
    have hgr := classifyLoop_grows w cmd files (initial fs)
    have hfs := classifyLoop_fs w cmd files (initial fs)
    have hc0 : ∀ g, archiveCount g (classifyLoop w cmd files (initial fs)).state.trace = 0 := by
      intro g
      rw [grows_archiveCount hgr g]
      simp [initial, archiveCount]
    cases hc : classifyLoop w cmd files (initial fs) with
    | exit s =>
      rw [hc] at hne hst hgr hfs hc0 hnd
      simp only [Outcome.state] at hne hst hgr hfs hc0 hnd
      have he2 : Execute w cmd fs = Outcome.exit s := by rw [he, hc]; rfl
      rw [he2]
      simp only [Outcome.state]
      refine ⟨fun f hf => ?_, hne, hst, Grows.mono (by simp) hgr, fun p _ => ?_, fun g => ?_,
        (fun h => by cases h), hnd⟩
      · cases hf; rw [hc]
      · rw [hfs]; rfl
      · rw [hc0 g]; exact Nat.zero_le _
    | ok s =>
      rw [hc] at hne hst hgr hfs hc0 hnd
      simp only [Outcome.state] at hne hst hgr hfs hc0 hnd
      have he2 : Execute w cmd fs = (archiveLoop w cmd (w.rangeOrder s.gameFiles) s).andThen
          fun st => Outcome.ok (runDeferred st) := by rw [he, hc]; rfl
      obtain ⟨a1, a2, a3, a4, a5⟩ := archivePhase w cmd horder s hnd
      rw [he2, a1]
      refine ⟨fun f hf => ?_, hne, hst, ?_, fun p hp => ?_, fun g => ?_, fun h g => ?_, hnd⟩
      · cases hf; rw [hc]; rfl
      · exact (Grows.mono (by simp) hgr).next a2
      · rw [a3 p hp, hfs]; rfl
      · have := a4 g
        rw [hc0 g, Nat.zero_add] at this
        exact this
      · have := a5 h g
        rw [hc0 g, Nat.zero_add] at this
        exact this

/-! ## Properties of the specification -/

/-- C1, as stated, fails: in a run that ends normally the game `Bare`, which
has no `rom` child and no recorded path, has as many recorded paths as required
files and no archive is made for it; and when `os.Create` fails on the archive
of `Alpha`, the run ends there and the complete game `Solo` gets no archive. -/
theorem bare_game_not_archived :
    (Execute (calm catalogShared) cmdBoth disk).exited = false
      ∧ (found (Execute (calm catalogShared) cmdBoth disk).state.gameFiles bare).length =
          bare.roms.length
      ∧ archiveCount bare (Execute (calm catalogShared) cmdBoth disk).state.trace = 0
      ∧ (Execute (noCreate catalogShared) cmdBoth disk).exited = true
      ∧ (found (Execute (noCreate catalogShared) cmdBoth disk).state.gameFiles solo).length =
          solo.roms.length
      ∧ archiveCount solo (Execute (noCreate catalogShared) cmdBoth disk).state.trace = 0 := by
  decide

/-- C1, as amended: the map at the end of a run is the one classification
built; an archive backend is called at most once for a game, and only for a
game with at least one recorded path and as many recorded paths as `rom`
children; in a run that no fatal error ends it is called exactly once for
every such game. -/
theorem archived_iff_complete (w : World) (cmd : zipCommand) (fs : List DiskFile)
    (horder : ∀ m, (w.rangeOrder m).Perm m) (g : Node) :
    (∀ files, inputFiles w cmd = some files →
        (Execute w cmd fs).state.gameFiles =
          (classifyLoop w cmd files (initial fs)).state.gameFiles)
      ∧ archiveCount g (Execute w cmd fs).state.trace ≤ 1
      ∧ (archiveCount g (Execute w cmd fs).state.trace = 1 →
          found (Execute w cmd fs).state.gameFiles g ≠ []
            ∧ (found (Execute w cmd fs).state.gameFiles g).length = g.roms.length)
      ∧ ((Execute w cmd fs).exited = false →
          archiveCount g (Execute w cmd fs).state.trace =
            if found (Execute w cmd fs).state.gameFiles g ≠ []
                ∧ (found (Execute w cmd fs).state.gameFiles g).length = g.roms.length
            then 1 else 0) := by
  obtain ⟨f1, f2, _, _, _, f6, f7, _⟩ := Execute_facts w cmd fs horder
  have hj := judgedComplete_eq _ f2 g
  have hle := f6 g
  refine ⟨f1, ?_, ?_, ?_⟩
  · by_cases hc : judgedComplete (Execute w cmd fs).state.gameFiles g = true
    · simpa [hc] using hle
    · rw [if_neg hc] at hle
      omega
  · intro h1
    have hc : judgedComplete (Execute w cmd fs).state.gameFiles g = true := by
      by_contra hc
      rw [if_neg hc] at hle
      omega
    rw [hj] at hc
    simp only [Bool.and_eq_true, decide_eq_true_eq] at hc
    exact ⟨hc.1, hc.2.symm⟩
  · intro hex
    rw [f7 hex g, hj]
    by_cases h1 : found (Execute w cmd fs).state.gameFiles g ≠ []
    · by_cases h2 : (found (Execute w cmd fs).state.gameFiles g).length = g.roms.length
      · simp [h1, h2]
      · have h3 : ¬ g.roms.length = (found (Execute w cmd fs).state.gameFiles g).length :=
          fun h => h2 h.symm
        simp [h1, h2, h3]
    · simp [h1]

/-- The theorem `archived_iff_complete` at the catalog with `Alpha` and `Solo`
and the input `a.bin`, `b.bin`: the run ends normally, and one archive is made
for `Alpha`. -/
theorem archived_iff_complete_witness :
    (Execute (calm catalogShared) cmdBoth disk).exited = false
      ∧ archiveCount alpha (Execute (calm catalogShared) cmdBoth disk).state.trace = 1 :=
  ⟨by decide,
    ((archived_iff_complete (calm catalogShared) cmdBoth disk
      (fun m => List.Perm.refl m) alpha).2.2.2 (by decide)).trans (by decide)⟩

/-- C4, as stated, fails: with the option to remove the sources, the file
`a.bin` is recorded for `Solo`, which is complete, and for `Alpha`, which is
not; no archive is made for `Alpha`, and `a.bin` is gone after the run. -/
theorem shared_file_removed :
    found (Execute (calm catalogShared) cmdRemoveA disk).state.gameFiles alpha = ["a.bin"]
      ∧ alpha.roms.length = 2
      ∧ archiveCount alpha (Execute (calm catalogShared) cmdRemoveA disk).state.trace = 0
      ∧ (osStat disk "a.bin").isSome = true
      ∧ osStat (Execute (calm catalogShared) cmdRemoveA disk).state.fs "a.bin" = none := by
  decide

/-- C4, as amended: for a game whose number of recorded paths differs from its
number of `rom` children no archive backend is called; `os.Remove` is called
only on paths recorded for a game that passes the test of line 76; and every
path recorded for the game that is recorded for no such game is still there
after the run. -/
theorem incomplete_game_kept (w : World) (cmd : zipCommand) (fs : List DiskFile)
    (horder : ∀ m, (w.rangeOrder m).Perm m) (g : Node)
    (hinc : (found (Execute w cmd fs).state.gameFiles g).length ≠ g.roms.length) :
    archiveCount g (Execute w cmd fs).state.trace = 0
      ∧ (∀ p ∈ removeAttempts (Execute w cmd fs).state.trace,
          ∃ g', judgedComplete (Execute w cmd fs).state.gameFiles g' = true
            ∧ p ∈ found (Execute w cmd fs).state.gameFiles g')
      ∧ (∀ p ∈ found (Execute w cmd fs).state.gameFiles g,
          (∀ g', judgedComplete (Execute w cmd fs).state.gameFiles g' = true →
            p ∉ found (Execute w cmd fs).state.gameFiles g') →
          (osStat fs p).isSome = true
            ∧ osStat (Execute w cmd fs).state.fs p = osStat fs p) := by
  obtain ⟨_, f2, f3, f4, f5, f6, _, hnd⟩ := Execute_facts w cmd fs horder
  refine ⟨?_, ?_, ?_⟩
  · have hle := f6 g
    have hc : ¬ judgedComplete (Execute w cmd fs).state.gameFiles g = true := by
      rw [judgedComplete_eq _ f2 g]
      simp only [Bool.and_eq_true, decide_eq_true_eq, not_and]
      intro _ h
      exact hinc h.symm
    rw [if_neg hc] at hle
    omega
  · intro p hp
    obtain ⟨evs, ht, hk⟩ := f4
    have hp2 : p ∈ evs.filterMap removedPath := by
      simpa [removeAttempts, ht, initial] using hp
    obtain ⟨e, he, hpe⟩ := List.mem_filterMap.mp hp2
    have ha := hk e he
    cases e with
    | remove q ok =>
      simp only [removedPath, Option.some.injEq] at hpe
      subst hpe
      obtain ⟨g', l, hm, hc, hq⟩ := ha
      have hget := mapGet_of_mem _ hnd g' l hm
      exact ⟨g', (judgedComplete_iff _ _).mpr ⟨l, hget, hc⟩, by simpa [found, hget] using hq⟩
    | _ => simp [removedPath] at hpe
  · intro p hp hno
    exact ⟨f3 g p hp, f5 p hno⟩

/-- The theorem `incomplete_game_kept` at the catalog with `Alpha` and `Solo`
and the input `a.bin`: `Alpha` has one recorded path of two, and no archive is
made for it. -/
theorem incomplete_game_kept_witness :
    (found (Execute (calm catalogShared) cmdRemoveA disk).state.gameFiles alpha).length = 1
      ∧ alpha.roms.length = 2
      ∧ archiveCount alpha (Execute (calm catalogShared) cmdRemoveA disk).state.trace = 0 :=
  ⟨by decide, by decide,
    (incomplete_game_kept (calm catalogShared) cmdRemoveA disk
      (fun m => List.Perm.refl m) alpha (by decide)).1⟩

/-! ## `internalZip` when nothing fails -/

theorem zipFiles_cons (w : World) (zipFileName : String) (p : String) (rest : List String)
    (st : State) (f : DiskFile) (hstat : osStat st.fs p = some f)
    (hopen : w.openErr p = false)
    (hheader : w.createHeaderErr zipFileName (Base p) = false) :
    zipFiles w zipFileName (p :: rest) st =
      zipFiles w zipFileName rest { st with trace := st.trace ++ entryEvents w zipFileName p f,
                                            deferred := p :: st.deferred } := by
  simp [zipFiles, osOpenErr, State.log, errorExit, Outcome.andThen, hstat, hopen, hheader,
    entryEvents]

theorem zipFiles_ok (w : World) (zipFileName : String) (fileList : List String)
    (info : String → DiskFile) (st : State)
    (hstat : ∀ p ∈ fileList, osStat st.fs p = some (info p))
    (hopen : ∀ p ∈ fileList, w.openErr p = false)
    (hheader : ∀ p ∈ fileList, w.createHeaderErr zipFileName (Base p) = false) :
    ∃ s evs, zipFiles w zipFileName fileList st = Outcome.ok s
      ∧ s.trace = st.trace ++ evs
      ∧ containerOps evs =
          fileList.map fun p => ContainerOp.entry (Base p) (info p).modTime (info p).mode := by
  induction fileList generalizing st with
  | nil => exact ⟨st, [], rfl, by simp, rfl⟩
  | cons p rest ih =>
    rw [zipFiles_cons w zipFileName p rest st (info p) (hstat p (List.mem_cons_self _ _))
      (hopen p (List.mem_cons_self _ _)) (hheader p (List.mem_cons_self _ _))]
    obtain ⟨s, evs, h1, h2, h3⟩ := ih
      ({ st with trace := st.trace ++ entryEvents w zipFileName p (info p),
                 deferred := p :: st.deferred })
      (fun q hq => hstat q (List.mem_cons_of_mem _ hq))
      (fun q hq => hopen q (List.mem_cons_of_mem _ hq))
      (fun q hq => hheader q (List.mem_cons_of_mem _ hq))
    refine ⟨s, entryEvents w zipFileName p (info p) ++ evs, h1, ?_, ?_⟩
    · rw [h2, List.append_assoc]
    · simp only [containerOps, List.filterMap_append, List.map_cons] at h3 ⊢
      rw [h3]
      simp [entryEvents, containerOp]

/-- C7, as stated, fails: when `os.Create` fails on the archive, `internalZip`
ends the process and writes no entry, although the one file of the list can be
opened and examined. -/
theorem create_failure_writes_nothing :
    osOpenErr (noCreate catalogAlpha) disk "a.bin" = false
      ∧ (osStat disk "a.bin").isSome = true
      ∧ (internalZip (noCreate catalogAlpha) "./Alpha.zip" ["a.bin"] (initial disk)).exited = true
      ∧ containerOps
          (internalZip (noCreate catalogAlpha) "./Alpha.zip" ["a.bin"] (initial disk)).state.trace
          = [] := by
  decide

/-- C7, as amended: when every file of the list can be examined and opened,
and the archive and the header of each entry can be created, `internalZip`
writes one entry per file of the list, in the order of the list, with the base
filename of the path and the modification time and mode of the file, and
closes the container after the last of them. -/
theorem internalZip_entries (w : World) (zipFileName : String) (fileList : List String)
    (info : String → DiskFile) (st : State)
    (hstat : ∀ p ∈ fileList, osStat st.fs p = some (info p))
    (hopen : ∀ p ∈ fileList, w.openErr p = false)
    (hcreate : w.createErr zipFileName = false)
    (hheader : ∀ p ∈ fileList, w.createHeaderErr zipFileName (Base p) = false) :
    ∃ evs, (internalZip w zipFileName fileList st).state.trace = st.trace ++ evs
      ∧ containerOps evs =
          (fileList.map fun p => ContainerOp.entry (Base p) (info p).modTime (info p).mode)
            ++ [ContainerOp.finalize (!w.zipperCloseErr zipFileName)]
      ∧ (internalZip w zipFileName fileList st).exited = w.zipperCloseErr zipFileName := by
  obtain ⟨s, evs, h1, h2, h3⟩ := zipFiles_ok w zipFileName fileList info
    { fs := st.fs, trace := st.trace ++ [Event.osCreate zipFileName true],
      gameFiles := st.gameFiles, deferred := [zipFileName] }
    hstat hopen hheader
  have hrun : internalZip w zipFileName fileList st =
      (errorExit (w.zipperCloseErr zipFileName)
        (s.log (Event.zipperClose zipFileName (!w.zipperCloseErr zipFileName)))).andThen
        fun t => Outcome.ok { runDeferred t with deferred := st.deferred } := by
    unfold internalZip
    simp only [hcreate, andThen_errorExit, Bool.not_false, Bool.false_eq_true, if_false,
      State.log]
    rw [h1]
    rfl
  rw [hrun, andThen_errorExit]
  cases hz : w.zipperCloseErr zipFileName with
  | true =>
    refine ⟨Event.osCreate zipFileName true :: (evs ++ [Event.zipperClose zipFileName false]),
      ?_, ?_, rfl⟩
    · simp [Outcome.state, State.log, h2]
    · simp [containerOps, List.filterMap_append, containerOp] at h3 ⊢
      rw [h3]
  | false =>
    refine ⟨Event.osCreate zipFileName true :: (evs ++ [Event.zipperClose zipFileName true]
        ++ s.deferred.map Event.close), ?_, ?_, rfl⟩
    · simp [Outcome.state, State.log, h2, runDeferred]
    · simp [containerOps, List.filterMap_append, containerOp] at h3 ⊢
      rw [h3]
      simp
      intro a _
      rfl

/-- The theorem `internalZip_entries` on the files `a.bin` and `b.bin`: two
entries, then the container is closed. -/
theorem internalZip_entries_witness :
    containerOps
        (internalZip (calm catalogAlpha) "./Alpha.zip" ["a.bin", "b.bin"] (initial disk)).state.trace
      = [ContainerOp.entry "a.bin" 100 420, ContainerOp.entry "b.bin" 200 420,
          ContainerOp.finalize true] := by
  obtain ⟨evs, h1, h2, _⟩ := internalZip_entries (calm catalogAlpha) "./Alpha.zip"
    ["a.bin", "b.bin"]
    (fun p => if p = "a.bin" then
        { path := "a.bin", isRegular := true, modTime := 100, mode := 420, sha := "sha-a" }
      else { path := "b.bin", isRegular := true, modTime := 200, mode := 420, sha := "sha-b" })
    (initial disk) (by decide) (by decide) (by decide) (by decide)
  rw [h1]
  simpa [containerOps, initial] using h2

/-! ## Lemmas: the backend calls, the programs run and the removals of a run -/

theorem log_trace (s : State) (e : Event) : (s.log e).trace = s.trace ++ [e] := rfl

theorem execCalls_log (s : State) (e : Event) (h : execCall e = none) :
    execCalls (s.log e).trace = execCalls s.trace := by
  simp [execCalls, State.log, List.filterMap_append, h]

theorem errorExit_state (err : Bool) (s : State) : (errorExit err s).state = s := by
  cases err <;> rfl

theorem quiet_events (evs : List Event) (h : ∀ e ∈ evs, allowed [] e) :
    evs.filterMap backendCall = [] ∧ evs.filterMap removedPath = [] := by
  constructor
  · rw [List.filterMap_eq_nil_iff]
    intro e he
    have := h e he
    cases e <;> simp_all [allowed, backendCall]
  · rw [List.filterMap_eq_nil_iff]
    intro e he
    have := h e he
    cases e <;> simp_all [allowed, removedPath]

theorem grows_backendCalls {a b : State} (h : Grows [] a b) :
    backendCalls b.trace = backendCalls a.trace := by
  obtain ⟨evs, t, k⟩ := h
  simp [backendCalls, t, List.filterMap_append, (quiet_events evs k).1]

theorem calls_of_count (evs : List Event) (h : ∀ g, evs.countP (isBackendOf g) = 0) :
    evs.filterMap backendCall = [] := by
  rw [List.filterMap_eq_nil_iff]
  intro e he
  cases e with
  | backend g x z l =>
    have := (List.countP_eq_zero.mp (h g)) (Event.backend g x z l) he
    simp [isBackendOf] at this
  | _ => rfl

theorem announce_trace (w : World) (cmd : zipCommand) (game : Node) (fl : List String)
    (s : State) :
    (announce w cmd game fl s).trace = s.trace ++
      [Event.mkdirAll cmd.OutputDir (!w.mkdirAllErr cmd.OutputDir),
        Event.output "Creating %s with %d file(s)..." [game.name ++ ".zip", toString fl.length],
        Event.backend game cmd.InfoZip (w.Join cmd.OutputDir (game.name ++ ".zip")) fl] := by
  simp [announce, State.log]

theorem archiveGame_backendCalls (w : World) (cmd : zipCommand) (game : Node)
    (fl : List String) (st : State) :
    backendCalls (archiveGame w cmd game fl st).state.trace =
      backendCalls st.trace ++
        (if game.roms.length = fl.length then
          [(game, cmd.InfoZip, w.Join cmd.OutputDir (game.name ++ ".zip"), fl)]
        else []) := by
  by_cases h : game.roms.length = fl.length
  · rw [archiveGame_complete w cmd game fl st h, if_pos h]
    apply state_andThen (fun s => backendCalls s.trace = backendCalls st.trace ++
      [(game, cmd.InfoZip, w.Join cmd.OutputDir (game.name ++ ".zip"), fl)])
    · rw [grows_backendCalls (zipBackend_quiet w cmd _ fl _).2.2, announce_trace, log_trace]
      simp [backendCalls, List.filterMap_append, backendCall]
    · intro s hs
      obtain ⟨evs, h1, _, h3, _⟩ := cleanUp_trace w cmd fl s
      simp only [Outcome.state, log_trace, h1]
      rw [← hs]
      simp [backendCalls, List.filterMap_append, calls_of_count evs h3, backendCall]
  · rw [archiveGame_incomplete w cmd game fl st h, if_neg h]
    simp [Outcome.state, log_trace, backendCalls, List.filterMap_append, backendCall]

theorem archiveGame_execCalls (w : World) (cmd : zipCommand) (game : Node)
    (fl : List String) (st : State) (hi : cmd.InfoZip = true) :
    execCalls (archiveGame w cmd game fl st).state.trace =
      execCalls st.trace ++
        (if game.roms.length = fl.length then
          [("zip", w.Join cmd.OutputDir (game.name ++ ".zip") :: fl)]
        else []) := by
  by_cases h : game.roms.length = fl.length
  · rw [archiveGame_complete w cmd game fl st h, if_pos h]
    apply state_andThen (fun s => execCalls s.trace = execCalls st.trace ++
      [("zip", w.Join cmd.OutputDir (game.name ++ ".zip") :: fl)])
    · unfold zipBackend externalZip
      rw [if_pos hi, errorExit_state, log_trace, announce_trace, log_trace]
      simp [execCalls, List.filterMap_append, execCall]
    · intro s hs
      obtain ⟨evs, h1, _, _, h4⟩ := cleanUp_trace w cmd fl s
      simp only [Outcome.state, log_trace, h1]
      rw [← hs]
      simp [execCalls, List.filterMap_append, h4, execCall]
  · rw [archiveGame_incomplete w cmd game fl st h, if_neg h]
    simp [Outcome.state, log_trace, execCalls, List.filterMap_append, execCall]

theorem archiveGame_removeAttempts (w : World) (cmd : zipCommand) (game : Node)
    (fl : List String) (st : State) :
    removeAttempts (archiveGame w cmd game fl st).state.trace =
      removeAttempts st.trace ++
        (if game.roms.length = fl.length ∧ cmd.Remove = true
            ∧ (archiveGame w cmd game fl st).exited = false then fl
        else []) := by
  by_cases h : game.roms.length = fl.length
  · rw [archiveGame_complete w cmd game fl st h]
    have hq := zipBackend_quiet w cmd (w.Join cmd.OutputDir (game.name ++ ".zip")) fl
      (announce w cmd game fl (st.log (Event.message Level.levelInfo
        "Game %s needs %d file(s), found %d"
        [game.name, toString game.roms.length, toString fl.length])))
    have h0 : removeAttempts (announce w cmd game fl (st.log (Event.message Level.levelInfo
        "Game %s needs %d file(s), found %d"
        [game.name, toString game.roms.length, toString fl.length]))).trace =
        removeAttempts st.trace := by
      rw [announce_trace, log_trace]
      simp [removeAttempts, List.filterMap_append, removedPath]
    have hr := grows_removeAttempts hq.2.2
    rw [h0] at hr
    cases hb : zipBackend w cmd (w.Join cmd.OutputDir (game.name ++ ".zip")) fl
        (announce w cmd game fl (st.log (Event.message Level.levelInfo
          "Game %s needs %d file(s), found %d"
          [game.name, toString game.roms.length, toString fl.length]))) with
    | exit s =>
      rw [hb] at hr
      simp only [Outcome.andThen, Outcome.state, Outcome.exited] at hr ⊢
      rw [hr]
      simp
    | ok s =>
      rw [hb] at hr
      obtain ⟨evs, h1, h2, _, _⟩ := cleanUp_trace w cmd fl s
      simp only [Outcome.andThen, Outcome.state, Outcome.exited, log_trace, h1] at hr ⊢
      simp only [removeAttempts, List.filterMap_append] at hr h2 ⊢
      rw [hr, h2]
      by_cases hrm : cmd.Remove = true <;> simp [hrm, h, removedPath]
  · rw [archiveGame_incomplete w cmd game fl st h]
    simp [Outcome.state, log_trace, removeAttempts, List.filterMap_append, removedPath, h]

/-- The backend calls, the programs run and the removals of the loop over the
entries: the expected ones, in order, up to the point where the process exits
if it does. -/
theorem archiveLoop_calls (w : World) (cmd : zipCommand) (es : GameFiles) (st : State) :
    ∃ X R,
      backendCalls (archiveLoop w cmd es st).state.trace = backendCalls st.trace ++ X
        ∧ X <+: expectedCalls w cmd es
        ∧ ((archiveLoop w cmd es st).exited = false → X = expectedCalls w cmd es)
        ∧ (cmd.InfoZip = true →
            execCalls (archiveLoop w cmd es st).state.trace =
              execCalls st.trace ++ X.map zipArgs)
        ∧ removeAttempts (archiveLoop w cmd es st).state.trace = removeAttempts st.trace ++ R
        ∧ (cmd.Remove = false → R = [])
        ∧ (cmd.Remove = true → R <+: archivedPaths es
            ∧ ((archiveLoop w cmd es st).exited = false → R = archivedPaths es)) := by
  induction es generalizing st with
  | nil =>
    exact ⟨[], [], by simp [archiveLoop, Outcome.state], List.nil_prefix, fun _ => rfl,
      fun _ => by simp [archiveLoop, Outcome.state], by simp [archiveLoop, Outcome.state],
      fun _ => rfl, fun _ => ⟨List.nil_prefix, fun _ => rfl⟩⟩
  | cons e rest ih =>
    obtain ⟨game, fl⟩ := e
    have ga := archiveGame_backendCalls w cmd game fl st
    have gb := archiveGame_execCalls w cmd game fl st
    have gc := archiveGame_removeAttempts w cmd game fl st
    unfold archiveLoop
    cases ho : archiveGame w cmd game fl st with
    | exit s =>
      rw [ho] at ga gb gc
      simp only [Outcome.state, Outcome.exited, Bool.true_eq_false, and_false, if_false,
        List.append_nil] at ga gb gc
      simp only [Outcome.andThen, Outcome.state, Outcome.exited]
      refine ⟨_, [], ga, ?_, (fun hx => by cases hx), ?_, by simpa using gc, fun _ => rfl,
        fun _ => ⟨List.nil_prefix, (fun hx => by cases hx)⟩⟩
      · simp only [expectedCalls]
        exact List.prefix_append _ _
      · intro hi
        rw [gb hi]
        by_cases h : game.roms.length = fl.length <;> simp [h, zipArgs]
    | ok s =>
      rw [ho] at ga gb gc
      simp only [Outcome.state, Outcome.exited, and_true] at ga gb gc
      simp only [Outcome.andThen]
      obtain ⟨X, R, i1, i2, i3, i4, i5, i6, i7⟩ := ih s
      refine ⟨(if game.roms.length = fl.length then
          [(game, cmd.InfoZip, w.Join cmd.OutputDir (game.name ++ ".zip"), fl)] else []) ++ X,
        (if game.roms.length = fl.length ∧ cmd.Remove = true then fl else []) ++ R,
        ?_, ?_, ?_, ?_, ?_, ?_, ?_⟩
      · rw [i1, ga, List.append_assoc]
      · simp only [expectedCalls]
        exact (List.prefix_append_right_inj _).mpr i2
      · intro hx
        simp only [expectedCalls]
        rw [i3 hx]
      · intro hi
        rw [i4 hi, gb hi, List.map_append, List.append_assoc]
        by_cases h : game.roms.length = fl.length <;> simp [h, zipArgs]
      · rw [i5, gc, List.append_assoc]
      · intro hr
        simp [hr, i6 hr]
      · intro hr
        simp only [archivedPaths, hr, and_true]
        exact ⟨(List.prefix_append_right_inj _).mpr (i7 hr).1,
          fun hx => by rw [(i7 hr).2 hx]⟩

theorem classifyFile_execCalls (w : World) (cmd : zipCommand) (st : State) (p : String) :
    execCalls (classifyFile w cmd st p).state.trace = execCalls st.trace := by
  cases h : skipped cmd st.fs p with
  | true =>
    obtain ⟨lvl, fmt, he⟩ := classifyFile_skipped w cmd st p h
    rw [he]
    exact execCalls_log _ _ rfl
  | false =>
    rw [classifyFile_kept w cmd st p h]
    by_cases ho : osOpenErr w st.fs p = true
    · rw [if_pos ho]
      exact execCalls_log _ _ rfl
    · rw [if_neg ho]
      simp [Outcome.state, recorded, execCalls, List.filterMap_append, execCall]

theorem classifyLoop_execCalls (w : World) (cmd : zipCommand) (files : List String)
    (st : State) :
    execCalls (classifyLoop w cmd files st).state.trace = execCalls st.trace :=
  classifyLoop_invariant w cmd (fun s => execCalls s.trace = execCalls st.trace)
    (fun s p hs => by
      show execCalls (classifyFile w cmd s p).state.trace = execCalls st.trace
      rw [classifyFile_execCalls]; exact hs) files st rfl

/-- The backend calls, the programs run and the removals of a run of `Execute`,
against the entries of the map in the order the loop is given them. -/
theorem Execute_calls (w : World) (cmd : zipCommand) (fs : List DiskFile) :
    backendCalls (Execute w cmd fs).state.trace <+:
        expectedCalls w cmd (w.rangeOrder (Execute w cmd fs).state.gameFiles)
      ∧ ((Execute w cmd fs).exited = false →
          backendCalls (Execute w cmd fs).state.trace =
            expectedCalls w cmd (w.rangeOrder (Execute w cmd fs).state.gameFiles))
      ∧ (cmd.InfoZip = true →
          execCalls (Execute w cmd fs).state.trace =
            (backendCalls (Execute w cmd fs).state.trace).map zipArgs)
      ∧ (cmd.Remove = false → removeAttempts (Execute w cmd fs).state.trace = [])
      ∧ (cmd.Remove = true →
          removeAttempts (Execute w cmd fs).state.trace <+:
              archivedPaths (w.rangeOrder (Execute w cmd fs).state.gameFiles)
            ∧ ((Execute w cmd fs).exited = false →
                removeAttempts (Execute w cmd fs).state.trace =
                  archivedPaths (w.rangeOrder (Execute w cmd fs).state.gameFiles))) := by
  have hnone : ∀ s : State, backendCalls s.trace = [] → execCalls s.trace = [] →
      removeAttempts s.trace = [] → Execute w cmd fs = Outcome.exit s →
      backendCalls (Execute w cmd fs).state.trace <+:
        expectedCalls w cmd (w.rangeOrder (Execute w cmd fs).state.gameFiles)
      ∧ ((Execute w cmd fs).exited = false →
          backendCalls (Execute w cmd fs).state.trace =
            expectedCalls w cmd (w.rangeOrder (Execute w cmd fs).state.gameFiles))
      ∧ (cmd.InfoZip = true →
          execCalls (Execute w cmd fs).state.trace =
            (backendCalls (Execute w cmd fs).state.trace).map zipArgs)
      ∧ (cmd.Remove = false → removeAttempts (Execute w cmd fs).state.trace = [])
      ∧ (cmd.Remove = true →
          removeAttempts (Execute w cmd fs).state.trace <+:
              archivedPaths (w.rangeOrder (Execute w cmd fs).state.gameFiles)
            ∧ ((Execute w cmd fs).exited = false →
                removeAttempts (Execute w cmd fs).state.trace =
                  archivedPaths (w.rangeOrder (Execute w cmd fs).state.gameFiles))) := by
    intro s hb hx hr he
    rw [he]
    refine ⟨?_, ?_, ?_, ?_, ?_⟩ <;> simp [Outcome.state, Outcome.exited, hb, hx, hr]
  cases hin : inputFiles w cmd with
  | none =>
    exact hnone (initial fs) rfl rfl rfl (by simp [Execute, hin, errorExit])
  | some files =>
    have he : Execute w cmd fs = (classifyLoop w cmd files (initial fs)).andThen fun st =>
        (archiveLoop w cmd (w.rangeOrder st.gameFiles) st).andThen fun st =>
          Outcome.ok (runDeferred st) := by
      simp [Execute, hin]
    have hgr := classifyLoop_grows w cmd files (initial fs)
    have cb : backendCalls (classifyLoop w cmd files (initial fs)).state.trace = [] := by
      rw [grows_backendCalls hgr]; rfl
    have cr : removeAttempts (classifyLoop w cmd files (initial fs)).state.trace = [] := by
      rw [grows_removeAttempts hgr]; rfl
    have cx : execCalls (classifyLoop w cmd files (initial fs)).state.trace = [] := by
      rw [classifyLoop_execCalls]; rfl
    cases hc : classifyLoop w cmd files (initial fs) with
    | exit s =>
      rw [hc] at cb cr cx
      exact hnone s cb cx cr (by rw [he, hc]; rfl)
    | ok s =>
      rw [hc] at cb cr cx
      simp only [Outcome.state] at cb cr cx
      obtain ⟨X, R, l1, l2, l3, l4, l5, l6, l7⟩ :=
        archiveLoop_calls w cmd (w.rangeOrder s.gameFiles) s
      have lg := archiveLoop_gameFiles w cmd (w.rangeOrder s.gameFiles) s
      rw [cb, List.nil_append] at l1
      rw [cx, List.nil_append] at l4
      rw [cr, List.nil_append] at l5
      cases hl : archiveLoop w cmd (w.rangeOrder s.gameFiles) s with
      | exit t =>
        have he2 : Execute w cmd fs = Outcome.exit t := by rw [he, hc]; simp [Outcome.andThen, hl]
        rw [hl] at l1 l3 l4 l5 l7 lg
        simp only [Outcome.state, Outcome.exited] at l1 l3 l4 l5 l7 lg
        rw [he2]
        simp only [Outcome.state, Outcome.exited, lg, l1, l5]
        exact ⟨l2, (fun h => by cases h), fun hi => by rw [l4 hi], fun hr => l6 hr,
          fun hr => ⟨(l7 hr).1, (fun h => by cases h)⟩⟩
      | ok t =>
        have he2 : Execute w cmd fs = Outcome.ok (runDeferred t) := by
          rw [he, hc]; simp [Outcome.andThen, hl]
        rw [hl] at l1 l3 l4 l5 l7 lg
        simp only [Outcome.state, Outcome.exited] at l1 l3 l4 l5 l7 lg
        have hq := runDeferred_quiet t
        have q1 : backendCalls (runDeferred t).trace = X := by
          rw [grows_backendCalls hq.2.2, l1]
        have q2 : removeAttempts (runDeferred t).trace = R := by
          rw [grows_removeAttempts hq.2.2, l5]
        have q3 : execCalls (runDeferred t).trace = execCalls t.trace := by
          simp only [runDeferred, execCalls, List.filterMap_append]
          have : List.filterMap execCall (List.map Event.close t.deferred) = [] := by
            rw [List.filterMap_eq_nil_iff]
            intro e he
            obtain ⟨x, _, hx⟩ := List.mem_map.mp he
            rw [← hx]; rfl
          rw [this, List.append_nil]
        have q4 : (runDeferred t).gameFiles = s.gameFiles := by
          rw [hq.2.1, lg]
        rw [he2]
        simp only [Outcome.state, Outcome.exited, q1, q2, q3, q4]
        exact ⟨l2, fun _ => l3 trivial, fun hi => l4 hi, fun hr => l6 hr,
          fun hr => ⟨(l7 hr).1, fun _ => (l7 hr).2 trivial⟩⟩

theorem expectedCalls_mem (w : World) (cmd : zipCommand) (es : GameFiles)
    (c : Node × Bool × String × List String) (h : c ∈ expectedCalls w cmd es) :
    (c.1, c.2.2.2) ∈ es ∧ c.1.roms.length = c.2.2.2.length
      ∧ c.2.1 = cmd.InfoZip ∧ c.2.2.1 = w.Join cmd.OutputDir (c.1.name ++ ".zip") := by
  induction es with
  | nil => simp [expectedCalls] at h
  | cons e rest ih =>
    obtain ⟨g, l⟩ := e
    simp only [expectedCalls, List.mem_append] at h
    rcases h with h | h
    · by_cases hc : g.roms.length = l.length
      · simp only [hc, if_true, List.mem_singleton] at h
        subst h
        exact ⟨List.mem_cons_self _ _, hc, rfl, rfl⟩
      · simp [hc] at h
    · obtain ⟨h1, h2⟩ := ih h
      exact ⟨List.mem_cons_of_mem _ h1, h2⟩

theorem expectedCalls_countP (w : World) (cmd : zipCommand) (es : GameFiles) (g : Node) :
    (expectedCalls w cmd es).countP (fun c => decide (c.1 = g)) =
      es.countP (fun e => decide (e.1 = g) && decide (e.1.roms.length = e.2.length)) := by
  induction es with
  | nil => rfl
  | cons e rest ih =>
    obtain ⟨k, l⟩ := e
    simp only [expectedCalls, List.countP_append, ih, List.countP_cons]
    by_cases hk : k = g
    · subst hk
      by_cases hc : k.roms.length = l.length <;> simp [hc, Nat.add_comm]
    · by_cases hc : k.roms.length = l.length <;> simp [hc, hk]

/-! ## The backends and the removal of the sources -/

/-- One turn of the loop on an entry that passes the test of line 76: with the
external backend it runs one external program, `zip`, with the path of the
archive followed by the paths of the list, in order; with the internal backend
its outcome is that of `internalZip` on the same path and list, followed by the
removal of the sources and the last message. -/
theorem archiveGame_arguments (w : World) (cmd : zipCommand) (game : Node) (fl : List String)
    (st : State) (hc : game.roms.length = fl.length) :
    (cmd.InfoZip = true →
        ∃ evs, (archiveGame w cmd game fl st).state.trace = st.trace ++ evs
          ∧ execCalls evs = [("zip", w.Join cmd.OutputDir (game.name ++ ".zip") :: fl)])
      ∧ (cmd.InfoZip = false →
          ∃ s0, s0.fs = st.fs ∧ s0.gameFiles = st.gameFiles
            ∧ execCalls s0.trace = execCalls st.trace
            ∧ archiveGame w cmd game fl st =
                (internalZip w (w.Join cmd.OutputDir (game.name ++ ".zip")) fl s0).andThen
                  fun s => Outcome.ok ((cleanUp w cmd fl s).log
                    (Event.output "Finished writing %s" [game.name ++ ".zip"]))) := by
  constructor
  · intro hi
    have htr : ∃ pre, (announce w cmd game fl (st.log (Event.message Level.levelInfo
          "Game %s needs %d file(s), found %d"
          [game.name, toString game.roms.length, toString fl.length]))).trace = st.trace ++ pre
        ∧ execCalls pre = [] :=
      ⟨[Event.message Level.levelInfo "Game %s needs %d file(s), found %d"
          [game.name, toString game.roms.length, toString fl.length],
        Event.mkdirAll cmd.OutputDir (!w.mkdirAllErr cmd.OutputDir),
        Event.output "Creating %s with %d file(s)..." [game.name ++ ".zip", toString fl.length],
        Event.backend game cmd.InfoZip (w.Join cmd.OutputDir (game.name ++ ".zip")) fl],
        by simp [announce, State.log], by simp [execCalls, execCall]⟩
    obtain ⟨pre, hpre, hpre2⟩ := htr
    rw [archiveGame_complete w cmd game fl st hc]
    unfold zipBackend externalZip
    simp only [hi, if_true]
    cases hr : w.runErr ([w.Join cmd.OutputDir (game.name ++ ".zip")] ++ fl) with
    | true =>
      refine ⟨pre ++ [Event.exec "zip" ([w.Join cmd.OutputDir (game.name ++ ".zip")] ++ fl)
        (!true)], ?_, ?_⟩
      · simp only [errorExit, if_true, Outcome.andThen, Outcome.state, log_trace, hpre,
          List.append_assoc]
      · simp [execCalls, execCall, List.filterMap_append] at hpre2 ⊢
        exact hpre2
    | false =>
      obtain ⟨evs, h1, _, _, h4⟩ := cleanUp_trace w cmd fl
        ((announce w cmd game fl (st.log (Event.message Level.levelInfo
          "Game %s needs %d file(s), found %d"
          [game.name, toString game.roms.length, toString fl.length]))).log
          (Event.exec "zip" ([w.Join cmd.OutputDir (game.name ++ ".zip")] ++ fl) (!false)))
      refine ⟨pre ++ [Event.exec "zip" ([w.Join cmd.OutputDir (game.name ++ ".zip")] ++ fl)
        (!false)] ++ evs ++ [Event.output "Finished writing %s" [game.name ++ ".zip"]], ?_, ?_⟩
      · simp only [errorExit, Bool.false_eq_true, if_false, Outcome.andThen, Outcome.state,
          log_trace, h1, hpre, List.append_assoc]
      · simp only [execCalls, List.filterMap_append] at hpre2 ⊢
        rw [hpre2, h4]
        simp [execCall]
  · intro hi
    refine ⟨announce w cmd game fl (st.log (Event.message Level.levelInfo
      "Game %s needs %d file(s), found %d"
      [game.name, toString game.roms.length, toString fl.length])), rfl, rfl, ?_, ?_⟩
    · simp [announce, execCalls, State.log, List.filterMap_append, execCall]
    · rw [archiveGame_complete w cmd game fl st hc]
      unfold zipBackend
      simp [hi]

/-- C8, as stated, fails: `Solo` and `Other` are both complete, the external
backend is selected and `zip` fails on the archive of `Solo`; the run exits
there, and no program is run for `Other`. -/
theorem later_game_not_archived :
    (Execute noZipSolo cmdExternal disk).exited = true
      ∧ judgedComplete (Execute noZipSolo cmdExternal disk).state.gameFiles other = true
      ∧ found (Execute noZipSolo cmdExternal disk).state.gameFiles other = ["b.bin"]
      ∧ execCalls (Execute noZipSolo cmdExternal disk).state.trace =
          [("zip", ["out/Solo.zip", "a.bin"])]
      ∧ archiveCount other (Execute noZipSolo cmdExternal disk).state.trace = 0 := by
  decide

/-- C8, as amended: in a run of `Execute` the backend calls are, in the order
of the loop, those expected for the games that pass the test of line 76, each
on the output directory joined with the name of the game and `.zip` and on the
list recorded for the game, one call for each such game; all of them when no
fatal error ends the run, and the first of them up to the fatal error
otherwise.  With the external backend the programs run are exactly these
calls, each as `zip` with the path of the archive followed by the paths of the
list.  In one turn of the loop on such a game, the external backend runs that
one program, and with the internal backend the outcome is that of
`internalZip` on the same path and list. -/
theorem backend_arguments (w : World) (cmd : zipCommand) (fs : List DiskFile)
    (horder : ∀ m, (w.rangeOrder m).Perm m) :
    backendCalls (Execute w cmd fs).state.trace <+:
        expectedCalls w cmd (w.rangeOrder (Execute w cmd fs).state.gameFiles)
      ∧ ((Execute w cmd fs).exited = false →
          backendCalls (Execute w cmd fs).state.trace =
            expectedCalls w cmd (w.rangeOrder (Execute w cmd fs).state.gameFiles))
      ∧ (cmd.InfoZip = true →
          execCalls (Execute w cmd fs).state.trace =
            (backendCalls (Execute w cmd fs).state.trace).map zipArgs)
      ∧ (∀ g, (expectedCalls w cmd
            (w.rangeOrder (Execute w cmd fs).state.gameFiles)).countP
              (fun c => decide (c.1 = g)) =
          if judgedComplete (Execute w cmd fs).state.gameFiles g then 1 else 0)
      ∧ (∀ c ∈ expectedCalls w cmd (w.rangeOrder (Execute w cmd fs).state.gameFiles),
          c = (c.1, cmd.InfoZip, w.Join cmd.OutputDir (c.1.name ++ ".zip"),
            found (Execute w cmd fs).state.gameFiles c.1))
      ∧ (∀ (game : Node) (fl : List String) (st : State),
          game.roms.length = fl.length →
          (cmd.InfoZip = true →
            ∃ evs, (archiveGame w cmd game fl st).state.trace = st.trace ++ evs
              ∧ execCalls evs = [("zip", w.Join cmd.OutputDir (game.name ++ ".zip") :: fl)])
          ∧ (cmd.InfoZip = false →
            ∃ s0, s0.fs = st.fs ∧ s0.gameFiles = st.gameFiles
              ∧ execCalls s0.trace = execCalls st.trace
              ∧ archiveGame w cmd game fl st =
                  (internalZip w (w.Join cmd.OutputDir (game.name ++ ".zip")) fl s0).andThen
                    fun s => Outcome.ok ((cleanUp w cmd fl s).log
                      (Event.output "Finished writing %s" [game.name ++ ".zip"])))) := by
  obtain ⟨r1, r2, r3, _, _⟩ := Execute_calls w cmd fs
  obtain ⟨_, _, _, _, _, _, _, hnd⟩ := Execute_facts w cmd fs horder
  refine ⟨r1, r2, r3, ?_, ?_, fun game fl st hc => archiveGame_arguments w cmd game fl st hc⟩
  · intro g
    rw [expectedCalls_countP, (horder _).countP_eq, countP_complete _ hnd g]
  · intro c hmem
    obtain ⟨h1, _, h3, h4⟩ := expectedCalls_mem w cmd _ c hmem
    have hget := mapGet_of_mem _ hnd c.1 c.2.2.2 ((horder _).mem_iff.mp h1)
    have hf : found (Execute w cmd fs).state.gameFiles c.1 = c.2.2.2 := by
      simp [found, hget]
    rw [hf, ← h3, ← h4]

/-- The theorem `backend_arguments` on the game `Alpha` with the external
backend and the output directory `out`: the one program run is `zip` on
`out/Alpha.zip`, `a.bin`, `b.bin`. -/
theorem backend_arguments_witness :
    execCalls (Execute (calm catalogAlpha) cmdExternal disk).state.trace =
      [("zip", ["out/Alpha.zip", "a.bin", "b.bin"])] :=
  ((backend_arguments (calm catalogAlpha) cmdExternal disk
    (fun m => List.Perm.refl m)).2.2.1 (by decide)).trans (by decide)

/-! ## Evaluations -/

/-- The theorem `aggregate_multiplicity` at the catalog with `Alpha` and `Solo`
and the input `a.bin`, `b.bin`: `a.bin` is once in the aggregate of `Alpha`. -/
theorem aggregate_multiplicity_witness :
    (found (classifyLoop (calm catalogShared) cmdBoth ["a.bin", "b.bin"]
      (initial disk)).state.gameFiles alpha).count "a.bin" = 1 :=
  (aggregate_multiplicity (calm catalogShared) cmdBoth disk ["a.bin", "b.bin"]
    (classifyLoop (calm catalogShared) cmdBoth ["a.bin", "b.bin"] (initial disk)).state
    (by decide) alpha "a.bin").1.trans (by decide)

/-- C3, as stated, fails: the text after the last dot of the path `d.x/f` is
`x/f`, which is excluded, and yet the file is opened and recorded for the game
`Deep`, which has no recorded file when the path is left out of the input. -/
theorem excluded_by_last_dot_opened :
    textAfterLastDot "d.x/f" = some "x/f"
      ∧ "x/f" ∈ cmdExclude.Exclude
      ∧ "d.x/f" ∈ openAttempts
          (classifyLoop (calm catalogAlpha) cmdExclude ["d.x/f"] (initial disk)).state.trace
      ∧ found (classifyLoop (calm catalogAlpha) cmdExclude ["d.x/f"]
          (initial disk)).state.gameFiles deep = ["d.x/f"]
      ∧ found (classifyLoop (calm catalogAlpha) cmdExclude []
          (initial disk)).state.gameFiles deep = [] := by
  decide

theorem classifyLoop_files (w : World) (cmd : zipCommand) (l files : List String)
    (st : State) :
    classifyLoop w { cmd with Files := l } files st = classifyLoop w cmd files st := by
  induction files generalizing st with
  | nil => rfl
  | cons p rest ih =>
    have hk : classifyLoop w { cmd with Files := l } rest = classifyLoop w cmd rest :=
      funext ih
    show (classifyFile w cmd st p).andThen (classifyLoop w { cmd with Files := l } rest) = _
    rw [hk]
    rfl

theorem Execute_exited (w : World) (cmd : zipCommand) (fs : List DiskFile)
    (files : List String) (hin : inputFiles w cmd = some files)
    (h : (Execute w cmd fs).exited = false) :
    (classifyLoop w cmd files (initial fs)).exited = false := by
  unfold Execute at h
  rw [hin] at h
  cases hc : classifyLoop w cmd files (initial fs) with
  | ok s => rfl
  | exit s =>
    simp [hc, Outcome.andThen, Outcome.exited] at h

/-- C9, as stated, fails: `Solo` and `Other` are complete on the input `a.bin`,
`b.bin` and on its permutation `b.bin`, `a.bin`, and `os.Create` fails on the
archive of `Solo`; the map is enumerated in the order of insertion, so on the
first input the run exits before `Other` is archived and on the second `Other`
is archived first. -/
theorem archived_depends_on_order :
    List.Perm cmdBoth.Files cmdSwapped.Files
      ∧ judgedComplete (Execute noCreateSolo cmdBoth disk).state.gameFiles other = true
      ∧ judgedComplete (Execute noCreateSolo cmdSwapped disk).state.gameFiles other = true
      ∧ archiveCount other (Execute noCreateSolo cmdBoth disk).state.trace = 0
      ∧ archiveCount other (Execute noCreateSolo cmdSwapped disk).state.trace = 1 :=
  ⟨List.Perm.swap _ _ _, by decide, by decide, by decide, by decide⟩

/-- C9, as amended: on two input lists that are permutations of each other the
classification loop ends the same way, and when it ends each game has
aggregates that are permutations of each other, an entry in one map exactly
when it has one in the other, and the same result of the test of line 76; so
two runs of `Execute` on the two lists that no fatal error ends call an archive
backend for the same games, as many times. -/
theorem classification_order_independent (w : World) (cmd : zipCommand)
    (fs : List DiskFile) (l1 l2 : List String) (hp : l1.Perm l2) :
    (classifyLoop w cmd l1 (initial fs)).exited = (classifyLoop w cmd l2 (initial fs)).exited
      ∧ ((classifyLoop w cmd l1 (initial fs)).exited = false → ∀ g : Node,
          (found (classifyLoop w cmd l1 (initial fs)).state.gameFiles g).Perm
              (found (classifyLoop w cmd l2 (initial fs)).state.gameFiles g)
            ∧ (mapGet (classifyLoop w cmd l1 (initial fs)).state.gameFiles g = none ↔
                mapGet (classifyLoop w cmd l2 (initial fs)).state.gameFiles g = none)
            ∧ judgedComplete (classifyLoop w cmd l1 (initial fs)).state.gameFiles g =
                judgedComplete (classifyLoop w cmd l2 (initial fs)).state.gameFiles g)
      ∧ ((∀ m, (w.rangeOrder m).Perm m) →
          (Execute w { cmd with Files := l1 } fs).exited = false →
          (Execute w { cmd with Files := l2 } fs).exited = false →
          ∀ g : Node,
            archiveCount g (Execute w { cmd with Files := l1 } fs).state.trace =
              archiveCount g (Execute w { cmd with Files := l2 } fs).state.trace) := by
  obtain ⟨c1, c2⟩ := classify_perm w cmd fs l1 l2 hp
  refine ⟨c1, c2, ?_⟩
  intro horder hx1 hx2 g
  by_cases hnil : l1 = []
  · have h2 : l2 = [] := by
      subst hnil
      exact List.Perm.eq_nil hp.symm
    rw [hnil, h2]
  · have hnil2 : l2 ≠ [] := by
      intro h2
      subst h2
      exact hnil (List.Perm.eq_nil hp)
    have hin1 : inputFiles w { cmd with Files := l1 } = some l1 := by
      simp [inputFiles, hnil]
    have hin2 : inputFiles w { cmd with Files := l2 } = some l2 := by
      simp [inputFiles, hnil2]
    obtain ⟨a1, _, _, _, _, _, a7, _⟩ := Execute_facts w { cmd with Files := l1 } fs horder
    obtain ⟨b1, _, _, _, _, _, b7, _⟩ := Execute_facts w { cmd with Files := l2 } fs horder
    have e1 := Execute_exited w _ fs l1 hin1 hx1
    rw [classifyLoop_files] at e1
    have g1 := a1 l1 hin1
    have g2 := b1 l2 hin2
    rw [classifyLoop_files] at g1 g2
    rw [a7 hx1 g, b7 hx2 g, g1, g2, (c2 e1 g).2.2]

/-- The theorem `classification_order_independent` on the inputs `a.bin`,
`b.bin` and `b.bin`, `a.bin`: `Alpha` is judged complete in both orders. -/
theorem classification_order_independent_witness :
    judgedComplete (classifyLoop (calm catalogShared) cmdBoth ["a.bin", "b.bin"]
        (initial disk)).state.gameFiles alpha = true
      ∧ judgedComplete (classifyLoop (calm catalogShared) cmdBoth ["b.bin", "a.bin"]
        (initial disk)).state.gameFiles alpha = true :=
  ⟨by decide,
    (((classification_order_independent (calm catalogShared) cmdBoth disk
      ["a.bin", "b.bin"] ["b.bin", "a.bin"] (List.Perm.swap _ _ _)).2.1 (by decide)
        alpha).2.2).symm.trans (by decide)⟩

/-- C6 on a failing input: when `io.Copy` fails on every file of the complete
game `Alpha`, with the option to remove the sources, the run goes on: the
archive is closed and reported as written, both sources are removed and
`Execute` returns normally.  And when `os.MkdirAll` fails, the run goes on to
announce the archive and to call `os.Create`. -/
theorem copy_failure_not_fatal :
    (Execute noCopy cmdRemoveBoth disk).exited = false
      ∧ Event.copy "./Alpha.zip" "a.bin" false ∈ (Execute noCopy cmdRemoveBoth disk).state.trace
      ∧ Event.zipperClose "./Alpha.zip" true ∈ (Execute noCopy cmdRemoveBoth disk).state.trace
      ∧ Event.output "Finished writing %s" ["Alpha.zip"] ∈
          (Execute noCopy cmdRemoveBoth disk).state.trace
      ∧ removeAttempts (Execute noCopy cmdRemoveBoth disk).state.trace = ["a.bin", "b.bin"]
      ∧ osStat (Execute noCopy cmdRemoveBoth disk).state.fs "a.bin" = none
      ∧ (Execute noMkdir cmdRemoveBoth disk).state.trace.drop 5 =
          [Event.mkdirAll "." false,
            Event.output "Creating %s with %d file(s)..." ["Alpha.zip", "2"],
            Event.backend alpha false "./Alpha.zip" ["a.bin", "b.bin"],
            Event.osCreate "./Alpha.zip" false] := by
  decide

/-- During classification no handle is released: after the loop, or when the
process exits in it, the open handles are the files whose `Close` is deferred;
when the loop ends these are all the inputs that were not skipped. -/
theorem classifyLoop_handles (w : World) (cmd : zipCommand) (fs : List DiskFile)
    (files : List String) :
    openHandles (classifyLoop w cmd files (initial fs)).state.trace =
        (classifyLoop w cmd files (initial fs)).state.deferred
      ∧ ((classifyLoop w cmd files (initial fs)).exited = false →
          (classifyLoop w cmd files (initial fs)).state.deferred =
            (files.filter fun p => !skipped cmd fs p).reverse) := by
  have hinv : ∀ (l : List String) (st : State), st.fs = fs →
      openHandles st.trace = st.deferred →
      openHandles (classifyLoop w cmd l st).state.trace = (classifyLoop w cmd l st).state.deferred
        ∧ ((classifyLoop w cmd l st).exited = false →
            (classifyLoop w cmd l st).state.deferred =
              (l.filter fun p => !skipped cmd fs p).reverse ++ st.deferred) := by
    intro l
    induction l with
    | nil =>
      intro st _ h
      exact ⟨h, fun _ => by simp [classifyLoop, Outcome.state]⟩
    | cons p rest ih =>
      intro st hfs h
      cases hs : skipped cmd st.fs p with
      | true =>
        obtain ⟨lvl, fmt, he⟩ := classifyFile_skipped w cmd st p hs
        have h1 := ih (st.log (Event.message lvl fmt [p])) hfs
          (by simpa [openHandles, State.log, List.foldl_append, handleStep] using h)
        rw [hfs] at hs
        simp only [classifyLoop, he, Outcome.andThen, List.filter_cons, hs, Bool.not_true,
          Bool.false_eq_true, if_false]
        exact h1
      | false =>
        by_cases ho : osOpenErr w st.fs p = true
        · simp only [classifyLoop, classifyFile_kept w cmd st p hs, if_pos ho, Outcome.andThen,
            Outcome.state, Outcome.exited]
          refine ⟨?_, fun hx => by cases hx⟩
          simpa [openHandles, State.log, List.foldl_append, handleStep] using h
        · have h1 := ih (recorded w st p) hfs
            (by
              simp only [recorded, openHandles, List.foldl_append] at h ⊢
              rw [show List.foldl handleStep [] st.trace = st.deferred from h]
              rfl)
          rw [hfs] at hs
          simp only [classifyLoop, classifyFile_kept w cmd st p (hfs ▸ hs), if_neg ho,
            Outcome.andThen, List.filter_cons, hs, Bool.not_false, if_true, List.reverse_cons,
            List.append_assoc, List.singleton_append]
          exact h1
  have := hinv files (initial fs) rfl rfl
  simpa [initial] using this

/-- C10 on a failing input: after the body of the classification loop has run
on `a.bin`, its handle is still open, so it is open when the loop turns to
`b.bin`; after the loop both handles are open, their `Close` calls deferred to
the return of `Execute`; at that return they are run. -/
theorem handles_stay_open :
    openHandles (classifyFile (calm catalogAlpha) cmdBoth (initial disk) "a.bin").state.trace
        = ["a.bin"]
      ∧ openHandles (classifyLoop (calm catalogAlpha) cmdBoth ["a.bin", "b.bin"]
          (initial disk)).state.trace = ["b.bin", "a.bin"]
      ∧ (classifyLoop (calm catalogAlpha) cmdBoth ["a.bin", "b.bin"]
          (initial disk)).state.deferred = ["b.bin", "a.bin"]
      ∧ openHandles (Execute (calm catalogAlpha) cmdBoth disk).state.trace = [] := by
  decide

end CheckRoms
